import Mathlib

/-!
Verification of the cpfs metadata server core (Go).

This file gives a shallow embedding of the two core components:
* the in-memory hierarchical metadata directory (`pkg/meta/memory_store.go`),
* the write-back file storage cache (`FileStorage`),
together with the path-normalisation helpers they share, and proves or
refutes the documented properties of these components.

Strings are modelled as Lean `String` (a wrapped `List Char`); Go byte
payloads are modelled as `List Nat`; the on-disk backing store is modelled
as an explicit association list from physical path to bytes threaded
through the operations that touch it; `uint64` arithmetic carries an
explicit `% 2 ^ 64`.
-/

/-- The modulus of Go's `uint64`. -/
def U64 : Nat := 2 ^ 64

/-- The null character, Go's `"\x00"`. -/
def nullChar : Char := Char.ofNat 0

/-! ### Association lists (Go maps) -/

/-- Lookup in an association list (Go `m[k]`, comma-ok form). -/
def lookupA {κ ν : Type} [DecidableEq κ] : List (κ × ν) → κ → Option ν
  | [], _ => none
  | (k, v) :: rest, key => if key = k then some v else lookupA rest key

/-- Remove every binding of a key (Go `delete(m, k)`). -/
def eraseA {κ ν : Type} [DecidableEq κ] : List (κ × ν) → κ → List (κ × ν)
  | [], _ => []
  | (k, v) :: rest, key => if key = k then eraseA rest key else (k, v) :: eraseA rest key

/-- Insert or overwrite a binding (Go `m[k] = v`). -/
def insertA {κ ν : Type} [DecidableEq κ] (m : List (κ × ν)) (key : κ) (v : ν) : List (κ × ν) :=
  (key, v) :: eraseA m key

/-- Add a key to a set of keys (Go `set[k] = true`). -/
def insertSet (l : List String) (k : String) : List String :=
  if k ∈ l then l else k :: l

/-- Remove a key from a set of keys (Go `delete(set, k)`). -/
def removeSet : List String → String → List String
  | [], _ => []
  | x :: rest, k => if x = k then removeSet rest k else x :: removeSet rest k

/-! ### Go `path` package (lexical path algebra)

`path.Clean` is the standard lexical cleaning algorithm: split on `'/'`,
drop empty and `"."` segments, resolve `".."` against a stack (at the root
a `".."` is dropped; in a relative path with an empty stack it is kept),
and re-join. -/

/-- Split a character list on `'/'` (accumulator holds the current segment
reversed). -/
def splitSegsAux : List Char → List Char → List (List Char)
  | [], cur => [cur.reverse]
  | c :: cs, cur => if c = '/' then cur.reverse :: splitSegsAux cs [] else splitSegsAux cs (c :: cur)

/-- Split a path into its `'/'`-separated segments. -/
def splitSegs (p : List Char) : List (List Char) := splitSegsAux p []

/-- Resolve `"."` and `".."` segments against a stack, as Go `path.Clean`
does; `rooted` tells whether the path is absolute. -/
def resolveSegs (rooted : Bool) : List (List Char) → List (List Char) → List (List Char)
  | [], acc => acc.reverse
  | s :: rest, [] =>
    if s = [] ∨ s = ['.'] then resolveSegs rooted rest []
    else if s = ['.', '.'] then
      (if rooted then resolveSegs rooted rest [] else resolveSegs rooted rest [s])
    else resolveSegs rooted rest [s]
  | s :: rest, t :: acc' =>
    if s = [] ∨ s = ['.'] then resolveSegs rooted rest (t :: acc')
    else if s = ['.', '.'] then
      (if t = ['.', '.'] then resolveSegs rooted rest (s :: t :: acc')
       else resolveSegs rooted rest acc')
    else resolveSegs rooted rest (s :: t :: acc')

/-- Join segments with `'/'`. -/
def joinSegs : List (List Char) → List Char
  | [] => []
  | [s] => s
  | s :: rest => s ++ '/' :: joinSegs rest

/-- Reassemble a cleaned absolute path from its resolved segments. -/
def cleanRooted (segs : List (List Char)) : List Char :=
  if segs = [] then ['/'] else '/' :: joinSegs segs

/-- Reassemble a cleaned relative path from its resolved segments. -/
def cleanRel (segs : List (List Char)) : List Char :=
  if segs = [] then ['.'] else joinSegs segs

/-- Go `path.Clean` on a character list. -/
def cleanL (p : List Char) : List Char :=
  if p = [] then ['.']
  else if p.head? = some '/' then cleanRooted (resolveSegs true (splitSegs p) [])
  else cleanRel (resolveSegs false (splitSegs p) [])

/-- Go `path.Clean` (also `filepath.Clean` on a `'/'`-separated system). -/
def goClean (s : String) : String := ⟨cleanL s.data⟩

/-- Stage 1 of `normalizePath`: `strings.ReplaceAll(p, "\\", "/")`. -/
def normStage1 (p : List Char) : List Char :=
  p.map (fun c => if c = '\\' then '/' else c)

/-- Stage 2 of `normalizePath`: `strings.TrimPrefix(p, "./")`. -/
def normStage2 (p : List Char) : List Char :=
  if (normStage1 p).take 2 = ['.', '/'] then (normStage1 p).drop 2 else normStage1 p

/-- Stage 3 of `normalizePath`: force a leading `'/'`. -/
def normStage3 (p : List Char) : List Char :=
  if (normStage2 p).head? = some '/' then normStage2 p else '/' :: normStage2 p

/-- `normalizePath` from `memory_store.go` on a character list: the three
stages above, then `path.Clean`, then mapping a `"."`/empty result to the
root. -/
def normalizeL (p : List Char) : List Char :=
  if cleanL (normStage3 p) = ['.'] ∨ cleanL (normStage3 p) = [] then ['/']
  else cleanL (normStage3 p)

/-- `normalizePath` from `memory_store.go`. -/
def normalizePath (s : String) : String := ⟨normalizeL s.data⟩

/-- The prefix of a path up to and including its last `'/'` (Go
`path.Split`'s directory part). -/
def dirChars : List Char → List Char
  | [] => []
  | c :: cs => if '/' ∈ cs then c :: dirChars cs else if c = '/' then ['/'] else []

/-- Go `path.Dir`: the cleaned directory part of a path. -/
def pathDir (p : String) : String := goClean ⟨dirChars p.data⟩

/-- Go `path.Base` on a character list: strip trailing slashes, then take
everything after the last remaining `'/'`. -/
def baseL (p : List Char) : List Char :=
  if p = [] then ['.']
  else
    let q := (p.reverse.dropWhile (fun c => c == '/')).reverse
    if q = [] then ['/']
    else (q.reverse.takeWhile (fun c => !(c == '/'))).reverse

/-- Go `path.Base`. -/
def pathBase (p : String) : String := ⟨baseL p.data⟩

/-- Go `strings.TrimPrefix`: drop one occurrence of a leading pattern. -/
def goTrimPre (s pat : String) : String :=
  if pat.data.isPrefixOf s.data then ⟨s.data.drop pat.data.length⟩ else s

/-- Go `strings.HasPrefix`. -/
def goHasPre (s pat : String) : Bool := pat.data.isPrefixOf s.data

/-- Go `filepath.Join` on two elements (empty elements are skipped; the
result of joining non-empty elements is cleaned; joining nothing gives
`""`). -/
def filepathJoin (a b : String) : String :=
  if a = "" && b = "" then ""
  else if a = "" then goClean b
  else if b = "" then goClean a
  else goClean (a ++ "/" ++ b)

/-! ### Metadata directory (`pkg/meta/types.go`, `pkg/meta/memory_store.go`) -/

/-- `FileType` from `types.go`. -/
inductive FileType
  | regular
  | directory
  | symlink
deriving DecidableEq

/-- `Block` from `types.go`. -/
structure Block where
  id : String
  size : Int
  offset : Int
  checksum : String
  locations : List String
deriving DecidableEq

/-- `Metadata` from `types.go`; `uint64` fields are `Nat` kept below
`U64`, timestamps are `Nat` ticks. -/
structure Metadata where
  inode : Nat
  name : String
  type : FileType
  size : Int
  mode : Nat
  blocks : List Block
  links : Int
  owner : String
  group : String
  createTime : Nat
  modifyTime : Nat
  accessTime : Nat
  version : Nat
deriving DecidableEq

/-- The error kinds the spec assigns to the Go error values. -/
inductive ErrKind
  | notFound
  | alreadyExists
  | invalidArgument
deriving DecidableEq

/-- Result of a fallible operation. -/
inductive Res (α : Type)
  | ok (val : α)
  | err (e : ErrKind)
deriving DecidableEq

/-- Whether a result is a success. -/
def Res.isOk {α : Type} : Res α → Bool
  | .ok _ => true
  | .err _ => false

/-- `os.ModeDir`, the directory bit of Go's `os.FileMode` (`1 << 31`). -/
def modeDirBit : Nat := 2 ^ 31

/-- `MemoryStore` from `memory_store.go`: the path-to-metadata map and the
inode counter (the `root` field is the `"/"` binding of `data`). -/
structure MemoryStore where
  data : List (String × Metadata)
  inodes : Nat
deriving DecidableEq

/-- The root record `NewMemoryStore` builds: type Directory, mode `0755`,
inode 1 (`nextInode` on a fresh counter). -/
def rootMeta (now : Nat) : Metadata :=
  { inode := 1 % U64, name := "/", type := .directory, size := 0, mode := 0o755,
    blocks := [], links := 0, owner := "", group := "",
    createTime := now, modifyTime := now, accessTime := now, version := 1 }

/-- `NewMemoryStore`: counter starts at 0, `nextInode` yields 1 for the
root, which is stored at `"/"`; `time.Now()` at construction is the
parameter `now`. -/
def newMemoryStore (now : Nat) : MemoryStore :=
  { data := [("/", rootMeta now)], inodes := 1 % U64 }

/-- The record `Create` builds for a fresh Regular entry. -/
def createdMeta (s : MemoryStore) (now : Nat) (p : String) (mode : Nat) : Metadata :=
  { inode := (s.inodes + 1) % U64, name := pathBase (normalizePath p), type := .regular,
    size := 0, mode := mode, blocks := [], links := 1, owner := "", group := "",
    createTime := now, modifyTime := now, accessTime := now, version := 1 }

/-- `MemoryStore.Create`: normalize, check the parent exists and is a
directory, check the target is absent, then allocate an inode and store a
fresh Regular entry. -/
def MemoryStore.create (s : MemoryStore) (now : Nat) (p : String) (mode : Nat) :
    Res (Metadata × MemoryStore) :=
  match lookupA s.data (pathDir (normalizePath p)) with
  | none => .err .notFound
  | some parentMeta =>
    if parentMeta.type ≠ .directory then .err .invalidArgument
    else match lookupA s.data (normalizePath p) with
      | some _ => .err .alreadyExists
      | none =>
        .ok (createdMeta s now p mode,
          { data := insertA s.data (normalizePath p) (createdMeta s now p mode),
              inodes := (s.inodes + 1) % U64 })

/-- `MemoryStore.Get`: lookup and bump `accessTime` (the Go code mutates
the stored record through the returned pointer). -/
def MemoryStore.get (s : MemoryStore) (now : Nat) (p : String) :
    Res (Metadata × MemoryStore) :=
  match lookupA s.data (normalizePath p) with
  | none => .err .notFound
  | some meta =>
    .ok ({ meta with accessTime := now },
      { s with data := insertA s.data (normalizePath p) ({ meta with accessTime := now }) })

/-- `MemoryStore.Update`: require the path to exist, then store the given
record wholesale with `ModifyTime = now` and `Version` incremented from
the given record's own version (`meta.Version++` in the source). -/
def MemoryStore.update (s : MemoryStore) (now : Nat) (p : String) (meta : Metadata) :
    Res MemoryStore :=
  match lookupA s.data (normalizePath p) with
  | none => .err .notFound
  | some _ =>
    .ok { s with
          data := insertA s.data (normalizePath p)
            ({ meta with modifyTime := now, version := (meta.version + 1) % U64 }) }

/-- `MemoryStore.Delete`: require the path to exist, then remove it
(there is no special case for the root). -/
def MemoryStore.delete (s : MemoryStore) (p : String) : Res MemoryStore :=
  match lookupA s.data (normalizePath p) with
  | none => .err .notFound
  | some _ => .ok { s with data := eraseA s.data (normalizePath p) }

/-- `MemoryStore.List`: require the path to name a directory, then return
the entries whose `path.Dir` equals the directory path, the directory
itself excluded (order is the map-iteration order, unspecified in Go). -/
def MemoryStore.list (s : MemoryStore) (p : String) : Res (List Metadata) :=
  match lookupA s.data (normalizePath p) with
  | none => .err .notFound
  | some dirMeta =>
    if dirMeta.type ≠ .directory then .err .invalidArgument
    else .ok ((s.data.filter
      (fun kv => pathDir kv.1 = normalizePath p ∧ kv.1 ≠ normalizePath p)).map (·.2))

/-- The record `Mkdir` builds for a fresh Directory entry. -/
def mkdirMeta (s : MemoryStore) (now : Nat) (p : String) (mode : Nat) : Metadata :=
  { inode := (s.inodes + 1) % U64, name := pathBase (normalizePath p), type := .directory,
    size := 0, mode := Nat.lor mode modeDirBit, blocks := [], links := 1, owner := "",
    group := "", createTime := now, modifyTime := now, accessTime := now, version := 1 }

/-- `MemoryStore.Mkdir`: the same checks as `Create`, storing a Directory
entry whose mode has `os.ModeDir` or-ed in. -/
def MemoryStore.mkdir (s : MemoryStore) (now : Nat) (p : String) (mode : Nat) :
    Res MemoryStore :=
  match lookupA s.data (pathDir (normalizePath p)) with
  | none => .err .notFound
  | some parentMeta =>
    if parentMeta.type ≠ .directory then .err .invalidArgument
    else match lookupA s.data (normalizePath p) with
      | some _ => .err .alreadyExists
      | none =>
        .ok { data := insertA s.data (normalizePath p) (mkdirMeta s now p mode),
              inodes := (s.inodes + 1) % U64 }

/-- One call against a `MemoryStore`, with the `time.Now()` value the call
observes where the operation reads the clock. -/
inductive Op
  | create (now : Nat) (p : String) (mode : Nat)
  | get (now : Nat) (p : String)
  | update (now : Nat) (p : String) (meta : Metadata)
  | delete (p : String)
  | mkdir (now : Nat) (p : String) (mode : Nat)
  | list (p : String)
deriving DecidableEq

/-- The state after one call (a failed call leaves the store unchanged:
every Go error path returns before mutating the receiver). -/
def MemoryStore.applyOp (s : MemoryStore) : Op → MemoryStore
  | .create now p mode =>
    match s.create now p mode with
    | .ok (_, s') => s'
    | .err _ => s
  | .get now p =>
    match s.get now p with
    | .ok (_, s') => s'
    | .err _ => s
  | .update now p meta =>
    match s.update now p meta with
    | .ok s' => s'
    | .err _ => s
  | .delete p =>
    match s.delete p with
    | .ok s' => s'
    | .err _ => s
  | .mkdir now p mode =>
    match s.mkdir now p mode with
    | .ok s' => s'
    | .err _ => s
  | .list _ => s

/-- The state after a sequence of calls. -/
def MemoryStore.run (s : MemoryStore) (ops : List Op) : MemoryStore :=
  ops.foldl MemoryStore.applyOp s

/-- Whether a call is a `Delete` or `Update` aimed at the root entry. -/
def opMutatesRoot : Op → Bool
  | .delete p => normalizePath p = "/"
  | .update _ p _ => normalizePath p = "/"
  | _ => false

/-- Whether a call is an `Update`. -/
def Op.isUpd : Op → Bool
  | .update _ _ _ => true
  | _ => false

/-- How many inode allocations (`Create`/`Mkdir` calls) a sequence can
perform at most. -/
def allocCount : List Op → Nat
  | [] => 0
  | .create _ _ _ :: rest => allocCount rest + 1
  | .mkdir _ _ _ :: rest => allocCount rest + 1
  | _ :: rest => allocCount rest

/-! ### Write-back file storage (`FileStorage`)

The on-disk backing store is modelled as an association list `Disk` from
physical path to bytes; directories are implicit (`os.MkdirAll` cannot
fail in the model), and the only read failure is absence. -/

/-- The backing filesystem: physical path to file bytes. -/
abbrev Disk : Type := List (String × List Nat)

/-- `StorageConfig` (the sync interval plays no role in the per-call
semantics; permissions are inert in the model). -/
structure StorageConfig where
  rootDir : String
  fileMode : Nat
  enableCompression : Bool
deriving DecidableEq

/-- `DefaultStorageConfig`. -/
def defaultStorageConfig : StorageConfig :=
  { rootDir := "data/meta", fileMode := 0o644, enableCompression := false }

/-- `FileStorage`: configuration, payload cache, and dirty-key set (the
Go `map[string]bool` only ever holds `true`). -/
structure FileStorage where
  config : StorageConfig
  cache : List (String × List Nat)
  dirty : List String
deriving DecidableEq

/-- `validatePath`: reject the empty path and paths holding a null byte,
and require the cleaned join onto the root to keep the root as a string
prefix. -/
def validatePath (cfg : StorageConfig) (p : String) : Bool :=
  if p = "" then false
  else if nullChar ∈ p.data then false
  else goHasPre (goClean (filepathJoin cfg.rootDir p)) cfg.rootDir

/-- `keyToPath`: strip one leading slash, validate, and join onto the
root. -/
def keyToPath (cfg : StorageConfig) (key : String) : Res String :=
  let key := goTrimPre key "/"
  if validatePath cfg key then .ok (filepathJoin cfg.rootDir key) else .err .invalidArgument

/-- `CompressData`: with compression off, the bytes unchanged; the
compression branch is an unimplemented passthrough (`TODO` in the
source), so also the bytes unchanged. -/
def compressData (cfg : StorageConfig) (data : List Nat) : List Nat :=
  if cfg.enableCompression = false then data else data

/-- `DecompressData`: same shape as `CompressData`. -/
def decompressData (cfg : StorageConfig) (data : List Nat) : List Nat :=
  if cfg.enableCompression = false then data else data

/-- `FileStorage.Save`: reject an empty key, normalize, reject the root
key, reject a key whose location mapping fails, then (compress and) store
the bytes in the cache and mark the key dirty. The backing store is not
touched. -/
def FileStorage.save (fs : FileStorage) (key : String) (data : List Nat) : Res FileStorage :=
  if key = "" then .err .invalidArgument
  else if normalizePath key = "/" then .err .invalidArgument
  else match keyToPath fs.config (goTrimPre (normalizePath key) "/") with
    | .err _ => .err .invalidArgument
    | .ok _ =>
      .ok { fs with
            cache := insertA fs.cache (normalizePath key)
              (if fs.config.enableCompression then compressData fs.config data else data),
            dirty := insertSet fs.dirty (normalizePath key) }

/-- `FileStorage.Load`: normalize, return the cached bytes on a hit;
otherwise map the key to its location, read the backing store (absence is
NotFound), (decompress and) repopulate the cache. -/
def FileStorage.load (fs : FileStorage) (disk : Disk) (key : String) :
    Res (List Nat × FileStorage) :=
  match lookupA fs.cache (normalizePath key) with
  | some data => .ok (data, fs)
  | none =>
    match keyToPath fs.config (goTrimPre (normalizePath key) "/") with
    | .err _ => .err .invalidArgument
    | .ok path =>
      match lookupA disk path with
      | none => .err .notFound
      | some data =>
        .ok ((if fs.config.enableCompression then decompressData fs.config data else data),
          { fs with
            cache := insertA fs.cache (normalizePath key)
              (if fs.config.enableCompression then decompressData fs.config data
               else data) })

/-- `FileStorage.Delete`: normalize, remove the key from the cache and
mark it dirty, and only then map the key to its location (failing with
InvalidArgument after the cache mutation) and remove the backing artifact
(absence is not an error). The post-call storage state is returned
alongside the result. -/
def FileStorage.delete (fs : FileStorage) (disk : Disk) (key : String) :
    Res Unit × FileStorage × Disk :=
  match keyToPath fs.config (goTrimPre (normalizePath key) "/") with
  | .err _ => (.err .invalidArgument,
      { fs with cache := eraseA fs.cache (normalizePath key),
                dirty := insertSet fs.dirty (normalizePath key) }, disk)
  | .ok path => (.ok (),
      { fs with cache := eraseA fs.cache (normalizePath key),
                dirty := insertSet fs.dirty (normalizePath key) }, eraseA disk path)

/-- `FileStorage.List`: the cached keys having the normalized prefix. -/
def FileStorage.listKeys (fs : FileStorage) (p : String) : Res (List String) :=
  .ok ((fs.cache.map (·.1)).filter (fun k => goHasPre k (normalizePath p)))

/-- The loop body of `FileStorage.Sync`: walk the cache; for a dirty
cached key, map it to its location (an invalid key aborts the whole sync
with the partial progress kept), write the bytes there, and clear the
dirty flag. -/
def syncGo (cfg : StorageConfig) :
    List (String × List Nat) → List String → Disk → Res (List String × Disk)
  | [], dirty, disk => .ok (dirty, disk)
  | (key, data) :: rest, dirty, disk =>
    if key ∈ dirty then
      match keyToPath cfg (goTrimPre key "/") with
      | .err _ => .err .invalidArgument
      | .ok path => syncGo cfg rest (removeSet dirty key) (insertA disk path data)
    else syncGo cfg rest dirty disk

/-- `FileStorage.Sync`: run the loop over the whole cache; the cache
itself is never modified. -/
def FileStorage.sync (fs : FileStorage) (disk : Disk) : Res (FileStorage × Disk) :=
  match syncGo fs.config fs.cache fs.dirty disk with
  | .err e => .err e
  | .ok (dirty', disk') => .ok ({ fs with dirty := dirty' }, disk')

/-! ### Concrete states used by the witnesses and counterexamples -/

/-- A record with version 10, as a caller could pass to `Update`. -/
def metaV10 : Metadata :=
  { inode := 7, name := "a", type := .regular, size := 0, mode := 420, blocks := [],
    links := 1, owner := "", group := "", createTime := 0, modifyTime := 0,
    accessTime := 0, version := 10 }

/-- A store holding the root and one file `/a` (created at tick 1). -/
def msC2 : MemoryStore := (newMemoryStore 0).run [Op.create 1 "/a" 420]

/-- The file record stored at `/a` in `msC2`. -/
def metaA1 : Metadata :=
  { inode := 2, name := "a", type := .regular, size := 0, mode := 420, blocks := [],
    links := 1, owner := "", group := "", createTime := 1, modifyTime := 1,
    accessTime := 1, version := 1 }

/-- `msC2` after `Update("/a", metaV10)` at tick 5. -/
def msC2after : MemoryStore :=
  (newMemoryStore 0).run [Op.create 1 "/a" 420, Op.update 5 "/a" metaV10]

/-- A store where `Update` has installed a record reusing the root's
inode 1 at `/a`. -/
def msC8 : MemoryStore :=
  (newMemoryStore 0).run [Op.create 1 "/a" 420, Op.update 2 "/a" { metaV10 with inode := 1 }]

/-- A store with `/d` (a directory) and `/d/f` below it. -/
def msC9 : MemoryStore := (newMemoryStore 0).run [Op.mkdir 1 "/d" 493, Op.create 2 "/d/f" 420]

/-- The directory record stored at `/d` in `msC9`. -/
def dMetaC9 : Metadata :=
  { inode := 2, name := "d", type := .directory, size := 0, mode := Nat.lor 493 modeDirBit,
    blocks := [], links := 1, owner := "", group := "", createTime := 1, modifyTime := 1,
    accessTime := 1, version := 1 }

/-- The file record stored at `/d/f` in `msC9`. -/
def fMetaC9 : Metadata :=
  { inode := 3, name := "f", type := .regular, size := 0, mode := 420, blocks := [],
    links := 1, owner := "", group := "", createTime := 2, modifyTime := 2,
    accessTime := 2, version := 1 }

/-- An empty file storage on the default configuration. -/
def fsEmpty : FileStorage := { config := defaultStorageConfig, cache := [], dirty := [] }

/-- `fsEmpty` after `Save("/a", [1])`. -/
def fsA : FileStorage :=
  { config := defaultStorageConfig, cache := [("/a", [1])], dirty := ["/a"] }

/-- `fsA` after `Delete("/a")`: the cache entry is gone, the dirty flag
remains. -/
def fsAdel : FileStorage :=
  { config := defaultStorageConfig, cache := [], dirty := ["/a"] }

/-- `fsA` after a successful `Sync`: the flag for the cached `/a` is
cleared. -/
def fsAsynced : FileStorage :=
  { config := defaultStorageConfig, cache := [("/a", [1])], dirty := [] }

/-- `fsEmpty` after `Save("/k/f", [3, 4, 5])`. -/
def fsKF : FileStorage :=
  { config := defaultStorageConfig, cache := [("/k/f", [3, 4, 5])], dirty := ["/k/f"] }

/-- A storage whose cache holds `/x` and a key bearing a null byte. -/
def fsC10 : FileStorage :=
  { config := defaultStorageConfig,
    cache := [("/x", [9]), (normalizePath "/x\x00", [8])], dirty := [] }

/-- The inode soundness invariant of a `MemoryStore`: stored inodes are
pairwise distinct and bounded by the counter. -/
def InodeInv (s : MemoryStore) : Prop :=
  (s.data.map (fun kv => kv.2.inode)).Nodup ∧ ∀ kv ∈ s.data, kv.2.inode ≤ s.inodes

/-! ### Canonical-form predicates for normalized paths -/

/-- A well-formed path segment: non-empty, not `"."` or `".."`, and free
of separators and backslashes. -/
def segOK (s : List Char) : Prop :=
  s ≠ [] ∧ s ≠ ['.'] ∧ s ≠ ['.', '.'] ∧ ∀ c ∈ s, c ≠ '/' ∧ c ≠ '\\'

/-- A non-empty list of well-formed segments whose characters come from
`p` (or are separators). -/
def goodSegs (p : List Char) (segs : List (List Char)) : Prop :=
  segs ≠ [] ∧ ∀ s ∈ segs, segOK s ∧ ∀ c ∈ s, c ∈ p ∨ c = '/'

/-! ### Association-list and key-set lemmas -/

theorem lookupA_eraseA_self {κ ν : Type} [DecidableEq κ] (m : List (κ × ν)) (k : κ) :
    lookupA (eraseA m k) k = none := by
  induction m with
  | nil => rfl
  | cons kv rest ih =>
    obtain ⟨k', v⟩ := kv
    by_cases h : k = k'
    · subst h
      simp [eraseA, lookupA, ih]
    · simp [eraseA, lookupA, h, ih]

theorem lookupA_eraseA_ne {κ ν : Type} [DecidableEq κ] (m : List (κ × ν)) (k k' : κ)
    (h : k' ≠ k) : lookupA (eraseA m k) k' = lookupA m k' := by
  induction m with
  | nil => rfl
  | cons kv rest ih =>
    obtain ⟨k0, v⟩ := kv
    by_cases h0 : k = k0
    · subst h0
      simp [eraseA, lookupA, h, ih]
    · by_cases h1 : k' = k0 <;> simp [eraseA, lookupA, h0, h1, ih]

theorem lookupA_insertA_self {κ ν : Type} [DecidableEq κ] (m : List (κ × ν)) (k : κ) (v : ν) :
    lookupA (insertA m k v) k = some v := by
  simp [insertA, lookupA]

theorem lookupA_insertA_ne {κ ν : Type} [DecidableEq κ] (m : List (κ × ν)) (k k' : κ) (v : ν)
    (h : k' ≠ k) : lookupA (insertA m k v) k' = lookupA m k' := by
  simp [insertA, lookupA, h, lookupA_eraseA_ne m k k' h]

theorem eraseA_sublist {κ ν : Type} [DecidableEq κ] (m : List (κ × ν)) (k : κ) :
    (eraseA m k).Sublist m := by
  induction m with
  | nil => simp [eraseA]
  | cons kv rest ih =>
    obtain ⟨k0, v⟩ := kv
    by_cases h : k = k0
    · simpa [eraseA, h] using ih.cons (k0, v)
    · simpa [eraseA, h] using ih.cons₂ (k0, v)

theorem mem_eraseA {κ ν : Type} [DecidableEq κ] {m : List (κ × ν)} {k : κ} {kv : κ × ν}
    (h : kv ∈ eraseA m k) : kv ∈ m := (eraseA_sublist m k).mem h

theorem mem_eraseA_key_ne {κ ν : Type} [DecidableEq κ] {m : List (κ × ν)} {k : κ} {kv : κ × ν}
    (h : kv ∈ eraseA m k) : kv.1 ≠ k := by
  induction m with
  | nil => simp [eraseA] at h
  | cons kv0 rest ih =>
    obtain ⟨k0, v⟩ := kv0
    by_cases h0 : k = k0
    · exact ih (by simpa [eraseA, h0] using h)
    · rcases (by simpa [eraseA, h0] using h : kv = (k0, v) ∨ kv ∈ eraseA rest k) with h1 | h1
      · subst h1
        exact fun hc => h0 hc.symm
      · exact ih h1

theorem lookupA_mem {κ ν : Type} [DecidableEq κ] {m : List (κ × ν)} {k : κ} {v : ν}
    (h : lookupA m k = some v) : (k, v) ∈ m := by
  induction m with
  | nil => simp [lookupA] at h
  | cons kv rest ih =>
    obtain ⟨k0, v0⟩ := kv
    by_cases h0 : k = k0
    · subst h0
      simp [lookupA] at h
      simp [h]
    · simp [lookupA, h0] at h
      exact List.mem_cons_of_mem _ (ih h)

theorem mem_removeSet {l : List String} {k x : String} :
    x ∈ removeSet l k ↔ x ∈ l ∧ x ≠ k := by
  induction l with
  | nil => simp [removeSet]
  | cons y rest ih =>
    rw [removeSet]
    by_cases h : y = k
    · rw [if_pos h, ih]
      subst h
      constructor
      · rintro ⟨h1, h2⟩
        exact ⟨List.mem_cons_of_mem y h1, h2⟩
      · rintro ⟨h1, h2⟩
        rcases List.mem_cons.mp h1 with rfl | h3
        · exact absurd rfl h2
        · exact ⟨h3, h2⟩
    · rw [if_neg h]
      constructor
      · intro hx
        rcases List.mem_cons.mp hx with rfl | h3
        · exact ⟨List.mem_cons_self x rest, fun hc => h hc⟩
        · rcases ih.mp h3 with ⟨h4, h5⟩
          exact ⟨List.mem_cons_of_mem y h4, h5⟩
      · rintro ⟨h1, h2⟩
        rcases List.mem_cons.mp h1 with rfl | h3
        · exact List.mem_cons_self x _
        · exact List.mem_cons_of_mem y (ih.mpr ⟨h3, h2⟩)

theorem mem_insertSet {l : List String} {k x : String} :
    x ∈ insertSet l k ↔ x = k ∨ x ∈ l := by
  by_cases h : k ∈ l
  · simp only [insertSet, if_pos h]
    constructor
    · exact Or.inr
    · rintro (rfl | h1)
      · exact h
      · exact h1
  · simp [insertSet, if_neg h]

/-! ### Path-normalization lemmas -/

theorem splitSegsAux_no_slash (cs : List Char) :
    ∀ cur, (∀ c ∈ cur, c ≠ '/') → ∀ s ∈ splitSegsAux cs cur, ∀ c ∈ s, c ≠ '/' := by
  induction cs with
  | nil =>
    intro cur hcur s hs c hc
    simp only [splitSegsAux, List.mem_singleton] at hs
    subst hs
    exact hcur c (List.mem_reverse.mp hc)
  | cons a cs ih =>
    intro cur hcur s hs c hc
    by_cases ha : a = '/'
    · rw [splitSegsAux, if_pos ha] at hs
      rcases List.mem_cons.mp hs with rfl | hs'
      · exact hcur c (List.mem_reverse.mp hc)
      · exact ih [] (by simp) s hs' c hc
    · rw [splitSegsAux, if_neg ha] at hs
      refine ih (a :: cur) ?_ s hs c hc
      intro c' hc'
      rcases List.mem_cons.mp hc' with rfl | h
      · exact ha
      · exact hcur c' h

theorem splitSegsAux_chars (cs : List Char) :
    ∀ cur, ∀ s ∈ splitSegsAux cs cur, ∀ c ∈ s, c ∈ cs ∨ c ∈ cur := by
  induction cs with
  | nil =>
    intro cur s hs c hc
    simp only [splitSegsAux, List.mem_singleton] at hs
    subst hs
    exact Or.inr (List.mem_reverse.mp hc)
  | cons a cs ih =>
    intro cur s hs c hc
    by_cases ha : a = '/'
    · rw [splitSegsAux, if_pos ha] at hs
      rcases List.mem_cons.mp hs with rfl | hs'
      · exact Or.inr (List.mem_reverse.mp hc)
      · rcases ih [] s hs' c hc with h | h
        · exact Or.inl (List.mem_cons_of_mem a h)
        · simp at h
    · rw [splitSegsAux, if_neg ha] at hs
      rcases ih (a :: cur) s hs c hc with h | h
      · exact Or.inl (List.mem_cons_of_mem a h)
      · rcases List.mem_cons.mp h with rfl | h'
        · exact Or.inl (List.mem_cons_self _ _)
        · exact Or.inr h'

theorem resolveSegs_true_segOK (segs : List (List Char)) :
    ∀ acc, (∀ s ∈ segs, ∀ c ∈ s, c ≠ '/' ∧ c ≠ '\\') → (∀ s ∈ acc, segOK s) →
      ∀ s ∈ resolveSegs true segs acc, segOK s := by
  induction segs with
  | nil =>
    intro acc _ hacc s hs
    rw [resolveSegs] at hs
    exact hacc s (List.mem_reverse.mp hs)
  | cons s0 rest ih =>
    intro acc hchars hacc s hs
    have hrest : ∀ t ∈ rest, ∀ c ∈ t, c ≠ '/' ∧ c ≠ '\\' :=
      fun t ht => hchars t (List.mem_cons_of_mem s0 ht)
    have hok : ¬(s0 = [] ∨ s0 = ['.']) → s0 ≠ ['.', '.'] → segOK s0 := by
      intro h1 h2
      exact ⟨fun h => h1 (Or.inl h), fun h => h1 (Or.inr h), h2,
        hchars s0 (List.mem_cons_self _ _)⟩
    cases acc with
    | nil =>
      rw [resolveSegs] at hs
      by_cases h1 : s0 = [] ∨ s0 = ['.']
      · rw [if_pos h1] at hs
        exact ih [] hrest (by simp) s hs
      · rw [if_neg h1] at hs
        by_cases h2 : s0 = ['.', '.']
        · rw [if_pos h2, if_pos rfl] at hs
          exact ih [] hrest (by simp) s hs
        · rw [if_neg h2] at hs
          refine ih [s0] hrest ?_ s hs
          intro t ht
          rcases List.mem_singleton.mp ht with rfl
          exact hok h1 h2
    | cons t acc' =>
      rw [resolveSegs] at hs
      by_cases h1 : s0 = [] ∨ s0 = ['.']
      · rw [if_pos h1] at hs
        exact ih (t :: acc') hrest hacc s hs
      · rw [if_neg h1] at hs
        by_cases h2 : s0 = ['.', '.']
        · have ht : segOK t := hacc t (List.mem_cons_self _ _)
          rw [if_pos h2, if_neg ht.2.2.1] at hs
          exact ih acc' hrest (fun u hu => hacc u (List.mem_cons_of_mem t hu)) s hs
        · rw [if_neg h2] at hs
          refine ih (s0 :: t :: acc') hrest ?_ s hs
          intro u hu
          rcases List.mem_cons.mp hu with rfl | hu'
          · exact hok h1 h2
          · exact hacc u hu'

theorem resolveSegs_canon_chars (r : Bool) (p : List Char) (segs : List (List Char)) :
    ∀ acc, (∀ s ∈ segs, ∀ c ∈ s, c ∈ p ∨ c = '/') → (∀ s ∈ acc, ∀ c ∈ s, c ∈ p ∨ c = '/') →
      ∀ s ∈ resolveSegs r segs acc, ∀ c ∈ s, c ∈ p ∨ c = '/' := by
  induction segs with
  | nil =>
    intro acc _ hacc s hs
    rw [resolveSegs] at hs
    exact hacc s (List.mem_reverse.mp hs)
  | cons s0 rest ih =>
    intro acc hsegs hacc s hs
    have hs0 : ∀ c ∈ s0, c ∈ p ∨ c = '/' := hsegs s0 (List.mem_cons_self s0 rest)
    have hrest : ∀ s ∈ rest, ∀ c ∈ s, c ∈ p ∨ c = '/' :=
      fun t ht => hsegs t (List.mem_cons_of_mem s0 ht)
    cases acc with
    | nil =>
      rw [resolveSegs] at hs
      by_cases h1 : s0 = [] ∨ s0 = ['.']
      · rw [if_pos h1] at hs
        exact ih [] hrest (by simp) s hs
      · rw [if_neg h1] at hs
        have hone : ∀ u ∈ [s0], ∀ c ∈ u, c ∈ p ∨ c = '/' := by
          intro u hu
          rcases List.mem_singleton.mp hu with rfl
          exact hs0
        by_cases h2 : s0 = ['.', '.']
        · rw [if_pos h2] at hs
          cases r with
          | true =>
            rw [if_pos rfl] at hs
            exact ih [] hrest (by simp) s hs
          | false =>
            rw [if_neg (by decide)] at hs
            exact ih [s0] hrest hone s hs
        · rw [if_neg h2] at hs
          exact ih [s0] hrest hone s hs
    | cons t acc' =>
      rw [resolveSegs] at hs
      have hpush : ∀ u ∈ s0 :: t :: acc', ∀ c ∈ u, c ∈ p ∨ c = '/' := by
        intro u hu
        rcases List.mem_cons.mp hu with rfl | hu'
        · exact hs0
        · exact hacc u hu'
      by_cases h1 : s0 = [] ∨ s0 = ['.']
      · rw [if_pos h1] at hs
        exact ih (t :: acc') hrest hacc s hs
      · rw [if_neg h1] at hs
        by_cases h2 : s0 = ['.', '.']
        · rw [if_pos h2] at hs
          by_cases h3 : t = ['.', '.']
          · rw [if_pos h3] at hs
            exact ih (s0 :: t :: acc') hrest hpush s hs
          · rw [if_neg h3] at hs
            exact ih acc' hrest (fun t' ht' => hacc t' (List.mem_cons_of_mem t ht')) s hs
        · rw [if_neg h2] at hs
          exact ih (s0 :: t :: acc') hrest hpush s hs

theorem resolveSegs_fixed (r : Bool) (segs : List (List Char)) :
    ∀ acc, (∀ s ∈ segs, segOK s) → resolveSegs r segs acc = acc.reverse ++ segs := by
  induction segs with
  | nil =>
    intro acc _
    rw [resolveSegs]
    simp
  | cons s0 rest ih =>
    intro acc hok
    have h0 : segOK s0 := hok s0 (List.mem_cons_self s0 rest)
    have h1 : ¬(s0 = [] ∨ s0 = ['.']) := by
      rintro (h | h)
      · exact h0.1 h
      · exact h0.2.1 h
    have hrest : ∀ t ∈ rest, segOK t := fun t ht => hok t (List.mem_cons_of_mem s0 ht)
    cases acc with
    | nil =>
      rw [resolveSegs, if_neg h1, if_neg h0.2.2.1, ih [s0] hrest]
      simp
    | cons t acc' =>
      rw [resolveSegs, if_neg h1, if_neg h0.2.2.1, ih (s0 :: t :: acc') hrest]
      simp

theorem mem_joinSegs {segs : List (List Char)} {c : Char} (h : c ∈ joinSegs segs) :
    c = '/' ∨ ∃ s, s ∈ segs ∧ c ∈ s := by
  induction segs with
  | nil => simp [joinSegs] at h
  | cons s0 rest ih =>
    cases rest with
    | nil =>
      simp only [joinSegs] at h
      exact Or.inr ⟨s0, List.mem_cons_self _ _, h⟩
    | cons s1 rest' =>
      simp only [joinSegs] at h
      rcases List.mem_append.mp h with h1 | h1
      · exact Or.inr ⟨s0, List.mem_cons_self _ _, h1⟩
      · rcases List.mem_cons.mp h1 with rfl | h2
        · exact Or.inl rfl
        · rcases ih h2 with h3 | ⟨s, hs, hc⟩
          · exact Or.inl h3
          · exact Or.inr ⟨s, List.mem_cons_of_mem s0 hs, hc⟩

theorem joinSegs_ne_nil {segs : List (List Char)} (h0 : segs ≠ [])
    (h1 : ∀ s ∈ segs, s ≠ []) : joinSegs segs ≠ [] := by
  cases segs with
  | nil => exact absurd rfl h0
  | cons s0 rest =>
    cases rest with
    | nil => simpa [joinSegs] using h1 s0 (List.mem_cons_self _ _)
    | cons s1 rest' => simp [joinSegs]

theorem joinSegs_head_ne_slash {s0 : List Char} {segs : List (List Char)}
    (h0 : s0 ≠ []) (h1 : ∀ c ∈ s0, c ≠ '/') :
    (joinSegs (s0 :: segs)).head? ≠ some '/' := by
  cases segs with
  | nil =>
    simp only [joinSegs]
    cases s0 with
    | nil => exact absurd rfl h0
    | cons c cs =>
      simp only [List.head?_cons]
      intro hc
      exact h1 c (List.mem_cons_self _ _) (Option.some.inj hc)
  | cons s1 rest =>
    simp only [joinSegs]
    cases s0 with
    | nil => exact absurd rfl h0
    | cons c cs =>
      simp only [List.cons_append, List.head?_cons]
      intro hc
      exact h1 c (List.mem_cons_self _ _) (Option.some.inj hc)

theorem splitSegsAux_append (s : List Char) :
    ∀ cur cs, (∀ c ∈ s, c ≠ '/') →
      splitSegsAux (s ++ cs) cur = splitSegsAux cs (s.reverse ++ cur) := by
  induction s with
  | nil =>
    intro cur cs _
    simp
  | cons a s' ih =>
    intro cur cs h
    have ha : a ≠ '/' := h a (List.mem_cons_self _ _)
    rw [List.cons_append, splitSegsAux, if_neg ha,
      ih (a :: cur) cs (fun c hc => h c (List.mem_cons_of_mem a hc))]
    simp

theorem splitSegs_no_slash (s : List Char) (h : ∀ c ∈ s, c ≠ '/') : splitSegs s = [s] := by
  have h2 := splitSegsAux_append s [] [] h
  simpa [splitSegs, splitSegsAux] using h2

theorem splitSegs_joinSegs (segs : List (List Char)) :
    (∀ s ∈ segs, s ≠ [] ∧ ∀ c ∈ s, c ≠ '/') → segs ≠ [] →
      splitSegs (joinSegs segs) = segs := by
  induction segs with
  | nil =>
    intro _ h0
    exact absurd rfl h0
  | cons s0 rest ih =>
    intro h1 _
    cases rest with
    | nil =>
      simp only [joinSegs]
      exact splitSegs_no_slash s0 (h1 s0 (List.mem_cons_self _ _)).2
    | cons s1 rest' =>
      simp only [joinSegs]
      rw [splitSegs, splitSegsAux_append s0 [] ('/' :: joinSegs (s1 :: rest'))
        (h1 s0 (List.mem_cons_self _ _)).2]
      rw [splitSegsAux, if_pos rfl]
      have hrec : splitSegs (joinSegs (s1 :: rest')) = s1 :: rest' :=
        ih (fun s hs => h1 s (List.mem_cons_of_mem s0 hs)) (by simp)
      rw [splitSegs] at hrec
      rw [hrec]
      simp

theorem normStage1_no_backslash (p : List Char) : ∀ c ∈ normStage1 p, c ≠ '\\' := by
  intro c hc
  rcases List.mem_map.mp hc with ⟨a, _, rfl⟩
  by_cases h : a = '\\'
  · rw [if_pos h]
    decide
  · rw [if_neg h]
    exact h

theorem normStage1_chars {p : List Char} {c : Char} (hc : c ∈ normStage1 p) :
    c ∈ p ∨ c = '/' := by
  rcases List.mem_map.mp hc with ⟨a, ha, rfl⟩
  by_cases h : a = '\\'
  · rw [if_pos h]
    exact Or.inr rfl
  · rw [if_neg h]
    exact Or.inl ha

theorem normStage2_sub {p : List Char} {c : Char} (hc : c ∈ normStage2 p) :
    c ∈ normStage1 p := by
  rw [normStage2] at hc
  by_cases h : (normStage1 p).take 2 = ['.', '/']
  · rw [if_pos h] at hc
    exact ((normStage1 p).drop_sublist 2).mem hc
  · rwa [if_neg h] at hc

theorem normStage3_head (p : List Char) : (normStage3 p).head? = some '/' := by
  rw [normStage3]
  by_cases h : (normStage2 p).head? = some '/'
  · rwa [if_pos h]
  · rw [if_neg h]
    rfl

theorem normStage3_ne_nil (p : List Char) : normStage3 p ≠ [] := by
  intro h
  have := normStage3_head p
  rw [h] at this
  exact Option.noConfusion this

theorem normStage3_no_backslash {p : List Char} {c : Char} (hc : c ∈ normStage3 p) :
    c ≠ '\\' := by
  rw [normStage3] at hc
  by_cases h : (normStage2 p).head? = some '/'
  · rw [if_pos h] at hc
    exact normStage1_no_backslash p c (normStage2_sub hc)
  · rw [if_neg h] at hc
    rcases List.mem_cons.mp hc with rfl | hc'
    · decide
    · exact normStage1_no_backslash p c (normStage2_sub hc')

theorem normStage3_chars {p : List Char} {c : Char} (hc : c ∈ normStage3 p) :
    c ∈ p ∨ c = '/' := by
  rw [normStage3] at hc
  by_cases h : (normStage2 p).head? = some '/'
  · rw [if_pos h] at hc
    exact normStage1_chars (normStage2_sub hc)
  · rw [if_neg h] at hc
    rcases List.mem_cons.mp hc with rfl | hc'
    · exact Or.inr rfl
    · exact normStage1_chars (normStage2_sub hc')

theorem normalizeL_canon (p : List Char) :
    normalizeL p = ['/'] ∨ ∃ segs, goodSegs p segs ∧ normalizeL p = '/' :: joinSegs segs := by
  have h3 := normStage3_head p
  have hne := normStage3_ne_nil p
  have ecl : cleanL (normStage3 p) =
      cleanRooted (resolveSegs true (splitSegs (normStage3 p)) []) := by
    rw [cleanL, if_neg hne, if_pos h3]
  have hok : ∀ s ∈ resolveSegs true (splitSegs (normStage3 p)) [], segOK s := by
    apply resolveSegs_true_segOK
    · intro s hs c hc
      constructor
      · exact splitSegsAux_no_slash (normStage3 p) [] (by simp) s hs c hc
      · rcases splitSegsAux_chars (normStage3 p) [] s hs c hc with h | h
        · exact normStage3_no_backslash h
        · simp at h
    · simp
  have hchars : ∀ s ∈ resolveSegs true (splitSegs (normStage3 p)) [], ∀ c ∈ s,
      c ∈ p ∨ c = '/' := by
    apply resolveSegs_canon_chars
    · intro s hs c hc
      rcases splitSegsAux_chars (normStage3 p) [] s hs c hc with h | h
      · exact normStage3_chars h
      · simp at h
    · simp
  by_cases hnil : resolveSegs true (splitSegs (normStage3 p)) [] = []
  · left
    rw [normalizeL, ecl, hnil]
    simp [cleanRooted]
  · right
    refine ⟨resolveSegs true (splitSegs (normStage3 p)) [],
      ⟨hnil, fun s hs => ⟨hok s hs, hchars s hs⟩⟩, ?_⟩
    have hc2 : cleanL (normStage3 p) =
        '/' :: joinSegs (resolveSegs true (splitSegs (normStage3 p)) []) := by
      rw [ecl, cleanRooted, if_neg hnil]
    rw [normalizeL, hc2, if_neg ?_]
    rintro (h | h) <;> simp at h

theorem normalizeL_fixed {q : List Char}
    (h : q = ['/'] ∨ ∃ segs, (segs ≠ [] ∧ ∀ s ∈ segs, segOK s) ∧ q = '/' :: joinSegs segs) :
    normalizeL q = q := by
  rcases h with rfl | ⟨segs, ⟨hn, hok⟩, rfl⟩
  · decide
  · have hchars : ∀ c ∈ ('/' :: joinSegs segs), c ≠ '\\' := by
      intro c hc
      rcases List.mem_cons.mp hc with rfl | hc'
      · decide
      · rcases mem_joinSegs hc' with rfl | ⟨s, hs, hcs⟩
        · decide
        · exact ((hok s hs).2.2.2 c hcs).2
    have h1 : normStage1 ('/' :: joinSegs segs) = '/' :: joinSegs segs := by
      rw [normStage1]
      refine (List.map_congr_left ?_).trans (List.map_id _)
      intro c hc
      show (if c = '\\' then '/' else c) = id c
      rw [if_neg (hchars c hc)]
      rfl
    have h2 : normStage2 ('/' :: joinSegs segs) = '/' :: joinSegs segs := by
      rw [normStage2, h1, if_neg ?_]
      simp [List.take_succ_cons]
    have h3 : normStage3 ('/' :: joinSegs segs) = '/' :: joinSegs segs := by
      rw [normStage3, h2, if_pos (List.head?_cons)]
    have hsplit : splitSegs ('/' :: joinSegs segs) = [] :: segs := by
      rw [splitSegs, splitSegsAux, if_pos rfl]
      have hrec := splitSegs_joinSegs segs
        (fun s hs => ⟨(hok s hs).1, fun c hc => ((hok s hs).2.2.2 c hc).1⟩) hn
      rw [splitSegs] at hrec
      simp only [List.reverse_nil]
      rw [hrec]
    have hres : resolveSegs true ([] :: segs) [] = segs := by
      cases segs with
      | nil => exact absurd rfl hn
      | cons s0 rest =>
        rw [resolveSegs, if_pos (Or.inl rfl)]
        exact (resolveSegs_fixed true (s0 :: rest) [] hok).trans (by simp)
    have hclean : cleanL ('/' :: joinSegs segs) = '/' :: joinSegs segs := by
      rw [cleanL, if_neg (by simp), if_pos (List.head?_cons), hsplit, hres, cleanRooted,
        if_neg hn]
    rw [normalizeL, h3, hclean, if_neg ?_]
    rintro (h | h) <;> simp at h

theorem normalizeL_idem (p : List Char) : normalizeL (normalizeL p) = normalizeL p := by
  rcases normalizeL_canon p with h | ⟨segs, ⟨hn, hgood⟩, h⟩
  · rw [h]
    exact normalizeL_fixed (Or.inl rfl)
  · rw [h]
    exact normalizeL_fixed (Or.inr ⟨segs, ⟨hn, fun s hs => (hgood s hs).1⟩, rfl⟩)

theorem normalizeL_head (p : List Char) : (normalizeL p).head? = some '/' := by
  rcases normalizeL_canon p with h | ⟨segs, _, h⟩ <;> rw [h] <;> rfl

theorem mem_normalizeL {p : List Char} {c : Char} (hc : c ∈ normalizeL p) :
    c ∈ p ∨ c = '/' := by
  rcases normalizeL_canon p with h | ⟨segs, ⟨_, hgood⟩, h⟩
  · rw [h] at hc
    rcases List.mem_singleton.mp hc with rfl
    exact Or.inr rfl
  · rw [h] at hc
    rcases List.mem_cons.mp hc with rfl | hc'
    · exact Or.inr rfl
    · rcases mem_joinSegs hc' with rfl | ⟨s, hs, hcs⟩
      · exact Or.inr rfl
      · exact (hgood s hs).2 c hcs

theorem normalizeL_shape (p : List Char) :
    normalizeL p = ['/'] ∨
      ∃ rest, rest ≠ [] ∧ rest.head? ≠ some '/' ∧ normalizeL p = '/' :: rest := by
  rcases normalizeL_canon p with h | ⟨segs, ⟨hn, hgood⟩, h⟩
  · exact Or.inl h
  · right
    cases segs with
    | nil => exact absurd rfl hn
    | cons s0 segs' =>
      have h0 := (hgood s0 (List.mem_cons_self _ _)).1
      refine ⟨joinSegs (s0 :: segs'), ?_, ?_, h⟩
      · exact joinSegs_ne_nil (by simp) (fun s hs => ((hgood s hs).1).1)
      · exact joinSegs_head_ne_slash h0.1 (fun c hc => (h0.2.2.2 c hc).1)

/-! ### The claims -/

/-- C7: `normalizePath` is a total deterministic function, idempotent
(`normalize(normalize(p)) = normalize(p)` for every string), always
returns a path beginning with `"/"`, is separator-agnostic
(`normalize("a\\b") = normalize("a/b") = "/a/b"`), maps `""` and `"."` to
`"/"`, resolves `".."` lexically without escaping the root, and collapses
repeated separators. -/
theorem c7_normalize_idempotent_canonical :
    (∀ p : String, normalizePath (normalizePath p) = normalizePath p) ∧
    (∀ p : String, (normalizePath p).data.head? = some '/') ∧
    normalizePath "a\\b" = normalizePath "a/b" ∧ normalizePath "a/b" = "/a/b" ∧
    normalizePath "" = "/" ∧ normalizePath "." = "/" ∧
    normalizePath "a/../b" = "/b" ∧ normalizePath ".." = "/" ∧ normalizePath "/.." = "/" ∧
    normalizePath "a//b" = "/a/b" := by
  refine ⟨?_, ?_, by decide, by decide, by decide, by decide, by decide, by decide,
    by decide, by decide⟩
  · intro p
    show (⟨normalizeL (normalizeL p.data)⟩ : String) = ⟨normalizeL p.data⟩
    rw [normalizeL_idem]
  · intro p
    exact normalizeL_head p.data

/-! ### Inversion lemmas for the metadata operations -/

theorem create_ok_inv {s : MemoryStore} {now : Nat} {p : String} {mode : Nat}
    {m : Metadata} {s' : MemoryStore} (h : s.create now p mode = .ok (m, s')) :
    lookupA s.data (normalizePath p) = none ∧ m = createdMeta s now p mode ∧
      s' = { data := insertA s.data (normalizePath p) (createdMeta s now p mode),
             inodes := (s.inodes + 1) % U64 } := by
  rw [MemoryStore.create] at h
  split at h
  · exact Res.noConfusion h
  · split at h
    · exact Res.noConfusion h
    · split at h
      · exact Res.noConfusion h
      · rename_i htgt
        injection h with hpair
        injection hpair with hm hs
        exact ⟨htgt, hm.symm, hs.symm⟩

theorem mkdir_ok_inv {s : MemoryStore} {now : Nat} {p : String} {mode : Nat}
    {s' : MemoryStore} (h : s.mkdir now p mode = .ok s') :
    lookupA s.data (normalizePath p) = none ∧
      s' = { data := insertA s.data (normalizePath p) (mkdirMeta s now p mode),
             inodes := (s.inodes + 1) % U64 } := by
  rw [MemoryStore.mkdir] at h
  split at h
  · exact Res.noConfusion h
  · split at h
    · exact Res.noConfusion h
    · split at h
      · exact Res.noConfusion h
      · rename_i htgt
        injection h with hs
        exact ⟨htgt, hs.symm⟩

theorem get_ok_inv {s : MemoryStore} {now : Nat} {p : String}
    {m : Metadata} {s' : MemoryStore} (h : s.get now p = .ok (m, s')) :
    ∃ m0, lookupA s.data (normalizePath p) = some m0 ∧ m = { m0 with accessTime := now } ∧
      s' = { s with
             data := insertA s.data (normalizePath p) ({ m0 with accessTime := now }) } := by
  rw [MemoryStore.get] at h
  split at h
  · exact Res.noConfusion h
  · rename_i m0 hl
    injection h with hpair
    injection hpair with hm hs
    exact ⟨m0, hl, hm.symm, hs.symm⟩

theorem update_ok_inv {s : MemoryStore} {now : Nat} {p : String} {meta : Metadata}
    {s' : MemoryStore} (h : s.update now p meta = .ok s') :
    (∃ m0, lookupA s.data (normalizePath p) = some m0) ∧
      s' = { s with data := insertA s.data (normalizePath p)
                      ({ meta with modifyTime := now,
                                   version := (meta.version + 1) % U64 }) } := by
  rw [MemoryStore.update] at h
  split at h
  · exact Res.noConfusion h
  · rename_i m0 hl
    injection h with hs
    exact ⟨⟨m0, hl⟩, hs.symm⟩

theorem delete_ok_inv {s : MemoryStore} {p : String} {s' : MemoryStore}
    (h : s.delete p = .ok s') :
    (∃ m0, lookupA s.data (normalizePath p) = some m0) ∧
      s' = { s with data := eraseA s.data (normalizePath p) } := by
  rw [MemoryStore.delete] at h
  split at h
  · exact Res.noConfusion h
  · rename_i m0 hl
    injection h with hs
    exact ⟨⟨m0, hl⟩, hs.symm⟩


/-! ### C1: the root entry -/

theorem applyOp_root (s : MemoryStore) (op : Op) (hop : opMutatesRoot op = false)
    (m : Metadata) (hm : lookupA s.data "/" = some m) (hdir : m.type = .directory) :
    ∃ m', lookupA (s.applyOp op).data "/" = some m' ∧ m'.type = .directory := by
  cases op with
  | create now p mode =>
    cases hc : s.create now p mode with
    | err e =>
      simp only [MemoryStore.applyOp, hc]
      exact ⟨m, hm, hdir⟩
    | ok x =>
      obtain ⟨mr, s'⟩ := x
      obtain ⟨hnone, _, hs'⟩ := create_ok_inv hc
      simp only [MemoryStore.applyOp, hc]
      subst hs'
      have hne : ("/" : String) ≠ normalizePath p := by
        intro hcontra
        rw [← hcontra, hm] at hnone
        exact Option.noConfusion hnone
      rw [lookupA_insertA_ne _ _ _ _ hne]
      exact ⟨m, hm, hdir⟩
  | mkdir now p mode =>
    cases hc : s.mkdir now p mode with
    | err e =>
      simp only [MemoryStore.applyOp, hc]
      exact ⟨m, hm, hdir⟩
    | ok s' =>
      obtain ⟨hnone, hs'⟩ := mkdir_ok_inv hc
      simp only [MemoryStore.applyOp, hc]
      subst hs'
      have hne : ("/" : String) ≠ normalizePath p := by
        intro hcontra
        rw [← hcontra, hm] at hnone
        exact Option.noConfusion hnone
      rw [lookupA_insertA_ne _ _ _ _ hne]
      exact ⟨m, hm, hdir⟩
  | get now p =>
    cases hc : s.get now p with
    | err e =>
      simp only [MemoryStore.applyOp, hc]
      exact ⟨m, hm, hdir⟩
    | ok x =>
      obtain ⟨mr, s'⟩ := x
      obtain ⟨m0, hsome, _, hs'⟩ := get_ok_inv hc
      simp only [MemoryStore.applyOp, hc]
      subst hs'
      by_cases hroot : ("/" : String) = normalizePath p
      · rw [← hroot, hm] at hsome
        have hm0 : m0 = m := (Option.some.inj hsome).symm
        refine ⟨{ m0 with accessTime := now }, ?_, by simp [hm0, hdir]⟩
        rw [hroot]
        exact lookupA_insertA_self _ _ _
      · rw [lookupA_insertA_ne _ _ _ _ hroot]
        exact ⟨m, hm, hdir⟩
  | update now p meta =>
    have hnp : normalizePath p ≠ "/" := by
      simp only [opMutatesRoot] at hop
      exact of_decide_eq_false hop
    cases hc : s.update now p meta with
    | err e =>
      simp only [MemoryStore.applyOp, hc]
      exact ⟨m, hm, hdir⟩
    | ok s' =>
      obtain ⟨_, hs'⟩ := update_ok_inv hc
      simp only [MemoryStore.applyOp, hc]
      subst hs'
      rw [lookupA_insertA_ne _ _ _ _ (fun hc2 => hnp hc2.symm)]
      exact ⟨m, hm, hdir⟩
  | delete p =>
    have hnp : normalizePath p ≠ "/" := by
      simp only [opMutatesRoot] at hop
      exact of_decide_eq_false hop
    cases hc : s.delete p with
    | err e =>
      simp only [MemoryStore.applyOp, hc]
      exact ⟨m, hm, hdir⟩
    | ok s' =>
      obtain ⟨_, hs'⟩ := delete_ok_inv hc
      simp only [MemoryStore.applyOp, hc]
      subst hs'
      rw [lookupA_eraseA_ne _ _ _ (fun hc2 => hnp hc2.symm)]
      exact ⟨m, hm, hdir⟩
  | list p =>
    simp only [MemoryStore.applyOp]
    exact ⟨m, hm, hdir⟩

theorem run_root (ops : List Op) :
    ∀ s : MemoryStore, (∀ op ∈ ops, opMutatesRoot op = false) →
      (∃ m, lookupA s.data "/" = some m ∧ m.type = .directory) →
      ∃ m, lookupA (s.run ops).data "/" = some m ∧ m.type = .directory := by
  induction ops with
  | nil =>
    intro s _ h
    exact h
  | cons op rest ih =>
    intro s hops h
    obtain ⟨m, hm, hdir⟩ := h
    exact ih (s.applyOp op) (fun o ho => hops o (List.mem_cons_of_mem op ho))
      (applyOp_root s op (hops op (List.mem_cons_self _ _)) m hm hdir)

/-- C1 counterexample: the original claim says `Delete("/")` cannot
remove the root, but running `Delete("/")` on a fresh store leaves no
`"/"` entry at all. -/
theorem c1_counterexample :
    lookupA ((newMemoryStore 0).run [Op.delete "/"]).data "/" = none := by decide

/-- C1 (amended): the root entry exists with type Directory in every
state reachable by call sequences in which neither `Delete` nor `Update`
is invoked on a path normalizing to `"/"` (the code itself does not guard
the root against those two calls). -/
theorem c1_root_directory_invariant (t0 : Nat) (ops : List Op)
    (h : ∀ op ∈ ops, opMutatesRoot op = false) :
    ∃ m, lookupA ((newMemoryStore t0).run ops).data "/" = some m ∧
      m.type = .directory := by
  refine run_root ops (newMemoryStore t0) h ⟨rootMeta t0, ?_, rfl⟩
  simp [newMemoryStore, lookupA]

/-- C1 witness: the amended invariant applied to a concrete sequence. -/
theorem c1_witness :
    ∃ m, lookupA ((newMemoryStore 0).run
      [Op.create 1 "/a" 420, Op.get 2 "/a", Op.delete "/a"]).data "/" = some m ∧
      m.type = .directory :=
  c1_root_directory_invariant 0 [Op.create 1 "/a" 420, Op.get 2 "/a", Op.delete "/a"]
    (by decide)

/-! ### C2: Update semantics -/

/-- C2 counterexample: the entry at `/a` has version 1; `Update` with a
record carrying version 10 stores version 11, not `1 + 1`: the increment
applies to the argument's version, not to the stored one. -/
theorem c2_counterexample :
    (lookupA msC2.data "/a").map Metadata.version = some 1 ∧
    msC2.update 5 "/a" metaV10 = .ok msC2after ∧
    (lookupA msC2after.data "/a").map Metadata.version = some 11 ∧
    (11 : Nat) ≠ 1 + 1 := by decide

/-- C2 (amended): on an existing path, `Update` succeeds and stores
`newMeta` wholesale except that `modifyTime` becomes the call time and
`version` becomes `newMeta.version + 1` (mod `2^64`) — one more than the
argument's version, not one more than the previously stored version;
other keys are untouched; `modifyTime` does not decrease when the clock
does not; on an absent path it fails with NotFound. -/
theorem c2_update_full_replace (s : MemoryStore) (now : Nat) (p : String) (meta : Metadata) :
    (lookupA s.data (normalizePath p) = none → s.update now p meta = .err .notFound) ∧
    (∀ old, lookupA s.data (normalizePath p) = some old →
      ∃ s', s.update now p meta = .ok s' ∧
        lookupA s'.data (normalizePath p) =
          some { meta with modifyTime := now, version := (meta.version + 1) % U64 } ∧
        (∀ k, k ≠ normalizePath p → lookupA s'.data k = lookupA s.data k) ∧
        s'.inodes = s.inodes ∧
        (old.modifyTime ≤ now →
          old.modifyTime ≤
            ({ meta with modifyTime := now,
                         version := (meta.version + 1) % U64 } : Metadata).modifyTime)) := by
  constructor
  · intro hnone
    simp only [MemoryStore.update, hnone]
  · intro old hold
    refine ⟨{ s with data := insertA s.data (normalizePath p)
                       ({ meta with modifyTime := now,
                                    version := (meta.version + 1) % U64 }) },
      ?_, ?_, ?_, rfl, ?_⟩
    · simp only [MemoryStore.update, hold]
    · exact lookupA_insertA_self _ _ _
    · intro k hk
      exact lookupA_insertA_ne _ _ _ _ hk
    · intro hle
      exact hle

/-- C2 witness: the amended statement applied to the concrete store with
`/a` at version 1 and an argument record at version 10. -/
theorem c2_witness :
    ∃ s', msC2.update 5 "/a" metaV10 = .ok s' ∧
      lookupA s'.data (normalizePath "/a") =
        some { metaV10 with modifyTime := 5, version := (metaV10.version + 1) % U64 } ∧
      (∀ k, k ≠ normalizePath "/a" → lookupA s'.data k = lookupA msC2.data k) ∧
      s'.inodes = msC2.inodes ∧
      (metaA1.modifyTime ≤ 5 →
        metaA1.modifyTime ≤
          ({ metaV10 with modifyTime := 5,
                          version := (metaV10.version + 1) % U64 } : Metadata).modifyTime) :=
  (c2_update_full_replace msC2 5 "/a" metaV10).2 metaA1 (by decide)

/-! ### C6: Create semantics -/

/-- C6: `Create` normalizes, fails NotFound when the parent is absent,
InvalidArgument when the parent is not a directory, AlreadyExists when
the target exists (in that order), and otherwise returns and stores a
fresh Regular record with the next inode, the last path segment as name,
`links = 1`, `version = 1`, `size = 0` and all three timestamps set to
the call time; failures return before any mutation. -/
theorem c6_create_checks_and_stores (s : MemoryStore) (now : Nat) (p : String) (mode : Nat) :
    (lookupA s.data (pathDir (normalizePath p)) = none →
      s.create now p mode = .err .notFound) ∧
    (∀ pm, lookupA s.data (pathDir (normalizePath p)) = some pm →
      pm.type ≠ .directory → s.create now p mode = .err .invalidArgument) ∧
    (∀ pm m0, lookupA s.data (pathDir (normalizePath p)) = some pm →
      pm.type = .directory → lookupA s.data (normalizePath p) = some m0 →
      s.create now p mode = .err .alreadyExists) ∧
    (∀ pm, lookupA s.data (pathDir (normalizePath p)) = some pm →
      pm.type = .directory → lookupA s.data (normalizePath p) = none →
      s.create now p mode = .ok (createdMeta s now p mode,
        { data := insertA s.data (normalizePath p) (createdMeta s now p mode),
          inodes := (s.inodes + 1) % U64 }) ∧
      createdMeta s now p mode =
        { inode := (s.inodes + 1) % U64,
          name := pathBase (normalizePath p), type := .regular, size := 0, mode := mode,
          blocks := [], links := 1, owner := "", group := "", createTime := now,
          modifyTime := now, accessTime := now, version := 1 }) := by
  refine ⟨?_, ?_, ?_, ?_⟩
  · intro h
    simp only [MemoryStore.create, h]
  · intro pm hpm hnd
    simp only [MemoryStore.create, hpm]
    rw [if_pos hnd]
  · intro pm m0 hpm hdir hm0
    simp only [MemoryStore.create, hpm, hm0]
    rw [if_neg (not_not_intro hdir)]
  · intro pm hpm hdir hnone
    refine ⟨?_, rfl⟩
    simp only [MemoryStore.create, hpm, hnone]
    rw [if_neg (not_not_intro hdir)]

/-- C6 witness: creating `/a` in a fresh store takes the success branch
and stores the documented record. -/
theorem c6_witness :
    ((newMemoryStore 0).create 7 "/a" 420 = .ok (createdMeta (newMemoryStore 0) 7 "/a" 420,
      { data := insertA (newMemoryStore 0).data (normalizePath "/a")
          (createdMeta (newMemoryStore 0) 7 "/a" 420),
        inodes := ((newMemoryStore 0).inodes + 1) % U64 }) ∧
    createdMeta (newMemoryStore 0) 7 "/a" 420 =
      { inode := ((newMemoryStore 0).inodes + 1) % U64,
        name := pathBase (normalizePath "/a"), type := .regular, size := 0, mode := 420,
        blocks := [], links := 1, owner := "", group := "", createTime := 7,
        modifyTime := 7, accessTime := 7, version := 1 }) :=
  (c6_create_checks_and_stores (newMemoryStore 0) 7 "/a" 420).2.2.2 (rootMeta 0)
    (by decide) rfl (by decide)

/-! ### C9: List semantics -/

/-- C9: `List` fails NotFound on an absent path, InvalidArgument on a
non-directory, and otherwise returns exactly the entries whose
`path.Dir` equals the directory path, the directory itself excluded; in
particular after `Mkdir("/d")` and `Create("/d/f")`, `List("/d")` is
exactly one entry named `f`. -/
theorem c9_list_one_level (s : MemoryStore) (p : String) :
    (lookupA s.data (normalizePath p) = none → s.list p = .err .notFound) ∧
    (∀ dm, lookupA s.data (normalizePath p) = some dm → dm.type ≠ .directory →
      s.list p = .err .invalidArgument) ∧
    (∀ dm, lookupA s.data (normalizePath p) = some dm → dm.type = .directory →
      ∃ rs, s.list p = .ok rs ∧
        ∀ meta, meta ∈ rs ↔
          ∃ k, (k, meta) ∈ s.data ∧ pathDir k = normalizePath p ∧ k ≠ normalizePath p) ∧
    (msC9.list "/d" = .ok [fMetaC9] ∧ fMetaC9.name = "f") := by
  refine ⟨?_, ?_, ?_, by decide, by decide⟩
  · intro h
    simp only [MemoryStore.list, h]
  · intro dm hdm hnd
    simp only [MemoryStore.list, hdm]
    rw [if_pos hnd]
  · intro dm hdm hdir
    refine ⟨(s.data.filter
      (fun kv => pathDir kv.1 = normalizePath p ∧ kv.1 ≠ normalizePath p)).map (·.2),
      ?_, ?_⟩
    · simp only [MemoryStore.list, hdm]
      rw [if_neg (not_not_intro hdir)]
    · intro meta
      constructor
      · intro hmem
        rcases List.mem_map.mp hmem with ⟨kv, hkv, hkv2⟩
        rcases List.mem_filter.mp hkv with ⟨hkvmem, hcond⟩
        have hcond' := of_decide_eq_true hcond
        refine ⟨kv.1, ?_, hcond'.1, hcond'.2⟩
        rw [← hkv2]
        simpa using hkvmem
      · rintro ⟨k, hk, hdirk, hne⟩
        apply List.mem_map.mpr
        exact ⟨(k, meta), List.mem_filter.mpr ⟨hk, decide_eq_true ⟨hdirk, hne⟩⟩, rfl⟩

/-- C9 witness: the characterization applied at the concrete store
holding `/d` and `/d/f`. -/
theorem c9_witness :
    ∃ rs, msC9.list "/d" = .ok rs ∧
      ∀ meta, meta ∈ rs ↔
        ∃ k, (k, meta) ∈ msC9.data ∧ pathDir k = normalizePath "/d" ∧
          k ≠ normalizePath "/d" :=
  (c9_list_one_level msC9 "/d").2.2.1 dMetaC9 (by decide) rfl

/-! ### C8: inode uniqueness -/

theorem eraseA_lookup_none {κ ν : Type} [DecidableEq κ] {m : List (κ × ν)} {k : κ}
    (h : lookupA m k = none) : eraseA m k = m := by
  induction m with
  | nil => rfl
  | cons kv rest ih =>
    obtain ⟨k0, v⟩ := kv
    by_cases hk : k = k0
    · rw [lookupA, if_pos hk] at h
      exact Option.noConfusion h
    · rw [lookupA, if_neg hk] at h
      rw [eraseA, if_neg hk, ih h]

theorem notmem_inode_eraseA {data : List (String × Metadata)} {fp : String} {m : Metadata}
    (hnodup : (data.map (fun kv => kv.2.inode)).Nodup)
    (hl : lookupA data fp = some m) :
    m.inode ∉ (eraseA data fp).map (fun kv => kv.2.inode) := by
  induction data with
  | nil => exact Option.noConfusion hl
  | cons kv rest ih =>
    obtain ⟨k0, v⟩ := kv
    rw [List.map_cons, List.nodup_cons] at hnodup
    obtain ⟨hhead, hrest⟩ := hnodup
    by_cases hk : fp = k0
    · rw [lookupA, if_pos hk] at hl
      have hv : v = m := Option.some.inj hl
      rw [eraseA, if_pos hk]
      intro hmem
      exact hhead (by
        rw [hv]
        exact (((eraseA_sublist rest fp).map (fun kv => kv.2.inode)).subset hmem))
    · rw [lookupA, if_neg hk] at hl
      rw [eraseA, if_neg hk, List.map_cons]
      intro hmem
      rcases List.mem_cons.mp hmem with heq | hmem'
      · have hin : m.inode ∈ rest.map (fun kv => kv.2.inode) :=
          List.mem_map.mpr ⟨(fp, m), lookupA_mem hl, rfl⟩
        exact hhead (heq ▸ hin)
      · exact ih hrest hl hmem'

theorem applyOp_inodes (s : MemoryStore) (op : Op) (hop : op.isUpd = false)
    (hinv : InodeInv s) (hcap : s.inodes + allocCount [op] < U64) :
    InodeInv (s.applyOp op) ∧ (s.applyOp op).inodes ≤ s.inodes + allocCount [op] := by
  obtain ⟨hnodup, hbound⟩ := hinv
  cases op with
  | update now p meta => simp [Op.isUpd] at hop
  | list p =>
    exact ⟨⟨hnodup, hbound⟩, Nat.le_add_right _ _⟩
  | delete p =>
    cases hc : s.delete p with
    | err e =>
      simp only [MemoryStore.applyOp, hc]
      exact ⟨⟨hnodup, hbound⟩, Nat.le_add_right _ _⟩
    | ok s' =>
      obtain ⟨_, hs'⟩ := delete_ok_inv hc
      simp only [MemoryStore.applyOp, hc]
      subst hs'
      refine ⟨⟨?_, ?_⟩, Nat.le_add_right _ _⟩
      · exact (((eraseA_sublist s.data (normalizePath p)).map _).nodup hnodup)
      · intro kv hkv
        exact hbound kv (mem_eraseA hkv)
  | get now p =>
    cases hc : s.get now p with
    | err e =>
      simp only [MemoryStore.applyOp, hc]
      exact ⟨⟨hnodup, hbound⟩, Nat.le_add_right _ _⟩
    | ok x =>
      obtain ⟨mr, s2⟩ := x
      obtain ⟨m0, hm0, _, hs'⟩ := get_ok_inv hc
      simp only [MemoryStore.applyOp, hc]
      subst hs'
      refine ⟨⟨?_, ?_⟩, Nat.le_add_right _ _⟩
      · show ((({ m0 with accessTime := now } : Metadata).inode) ::
          ((eraseA s.data (normalizePath p)).map (fun kv => kv.2.inode))).Nodup
        rw [List.nodup_cons]
        constructor
        · exact @notmem_inode_eraseA s.data (normalizePath p) m0 hnodup hm0
        · exact ((eraseA_sublist s.data (normalizePath p)).map _).nodup hnodup
      · intro kv hkv
        rcases List.mem_cons.mp hkv with rfl | hkv'
        · exact hbound (normalizePath p, m0) (lookupA_mem hm0)
        · exact hbound kv (mem_eraseA hkv')
  | create now p mode =>
    cases hc : s.create now p mode with
    | err e =>
      simp only [MemoryStore.applyOp, hc]
      exact ⟨⟨hnodup, hbound⟩, Nat.le_add_right _ _⟩
    | ok x =>
      obtain ⟨mr, s2⟩ := x
      obtain ⟨hnone, _, hs'⟩ := create_ok_inv hc
      simp only [MemoryStore.applyOp, hc]
      subst hs'
      have hmod : (s.inodes + 1) % U64 = s.inodes + 1 := by
        apply Nat.mod_eq_of_lt
        simpa [allocCount] using hcap
      have hdata : insertA s.data (normalizePath p) (createdMeta s now p mode) =
          (normalizePath p, createdMeta s now p mode) :: s.data := by
        rw [insertA, eraseA_lookup_none hnone]
      refine ⟨⟨?_, ?_⟩, ?_⟩
      · rw [hdata, List.map_cons, List.nodup_cons]
        constructor
        · intro hmem
          rcases List.mem_map.mp hmem with ⟨kv, hkv, heq⟩
          have := hbound kv hkv
          rw [heq] at this
          rw [show (createdMeta s now p mode).inode = (s.inodes + 1) % U64 from rfl,
            hmod] at this
          omega
        · exact hnodup
      · intro kv hkv
        rw [hdata] at hkv
        rcases List.mem_cons.mp hkv with rfl | hkv'
        · exact Nat.le_refl _
        · show kv.2.inode ≤ (s.inodes + 1) % U64
          rw [hmod]
          exact Nat.le_succ_of_le (hbound kv hkv')
      · show (s.inodes + 1) % U64 ≤ s.inodes + allocCount [Op.create now p mode]
        rw [hmod]
        simp [allocCount]
  | mkdir now p mode =>
    cases hc : s.mkdir now p mode with
    | err e =>
      simp only [MemoryStore.applyOp, hc]
      exact ⟨⟨hnodup, hbound⟩, Nat.le_add_right _ _⟩
    | ok s2 =>
      obtain ⟨hnone, hs'⟩ := mkdir_ok_inv hc
      simp only [MemoryStore.applyOp, hc]
      subst hs'
      have hmod : (s.inodes + 1) % U64 = s.inodes + 1 := by
        apply Nat.mod_eq_of_lt
        simpa [allocCount] using hcap
      have hdata : insertA s.data (normalizePath p) (mkdirMeta s now p mode) =
          (normalizePath p, mkdirMeta s now p mode) :: s.data := by
        rw [insertA, eraseA_lookup_none hnone]
      refine ⟨⟨?_, ?_⟩, ?_⟩
      · rw [hdata, List.map_cons, List.nodup_cons]
        constructor
        · intro hmem
          rcases List.mem_map.mp hmem with ⟨kv, hkv, heq⟩
          have := hbound kv hkv
          rw [heq] at this
          rw [show (mkdirMeta s now p mode).inode = (s.inodes + 1) % U64 from rfl,
            hmod] at this
          omega
        · exact hnodup
      · intro kv hkv
        rw [hdata] at hkv
        rcases List.mem_cons.mp hkv with rfl | hkv'
        · exact Nat.le_refl _
        · show kv.2.inode ≤ (s.inodes + 1) % U64
          rw [hmod]
          exact Nat.le_succ_of_le (hbound kv hkv')
      · show (s.inodes + 1) % U64 ≤ s.inodes + allocCount [Op.mkdir now p mode]
        rw [hmod]
        simp [allocCount]

theorem run_inodes (ops : List Op) :
    ∀ s : MemoryStore, (∀ op ∈ ops, op.isUpd = false) → InodeInv s →
      s.inodes + allocCount ops < U64 →
      InodeInv (s.run ops) ∧ (s.run ops).inodes ≤ s.inodes + allocCount ops := by
  induction ops with
  | nil =>
    intro s _ h _
    exact ⟨h, Nat.le_refl _⟩
  | cons op rest ih =>
    intro s hops hinv hcap
    have hcap1 : s.inodes + allocCount [op] < U64 := by
      cases op <;> simp only [allocCount] at hcap ⊢ <;> omega
    obtain ⟨hinv', hle⟩ := applyOp_inodes s op (hops op (List.mem_cons_self _ _)) hinv hcap1
    have hcap2 : (s.applyOp op).inodes + allocCount rest < U64 := by
      cases op <;> simp only [allocCount] at hcap hle ⊢ <;> omega
    obtain ⟨hinv2, hle2⟩ :=
      ih (s.applyOp op) (fun o ho => hops o (List.mem_cons_of_mem op ho)) hinv' hcap2
    refine ⟨hinv2, Nat.le_trans hle2 ?_⟩
    cases op <;> simp only [allocCount] at hle ⊢ <;> omega

/-- C8 counterexample: `Update` stores its argument record verbatim
(apart from `modifyTime`/`version`), so it can install a duplicate of the
root's inode: afterwards `/` and `/a` both carry inode 1. -/
theorem c8_counterexample :
    (lookupA msC8.data "/").map Metadata.inode = some 1 ∧
    (lookupA msC8.data "/a").map Metadata.inode = some 1 ∧
    ("/" : String) ≠ "/a" := by decide

/-- C8 (amended): in every state reachable without `Update` and with
fewer than `2^64 - 1` allocations, the stored inodes are pairwise
distinct and bounded by the monotone counter (each allocation takes the
next counter value); `Update` can store an arbitrary inode, so duplicates
are reachable through it. -/
theorem c8_inodes_distinct_without_update (t0 : Nat) (ops : List Op)
    (hnoupd : ∀ op ∈ ops, op.isUpd = false)
    (hcap : 1 + allocCount ops < U64) :
    (((newMemoryStore t0).run ops).data.map (fun kv => kv.2.inode)).Nodup ∧
    ∀ kv ∈ ((newMemoryStore t0).run ops).data,
      kv.2.inode ≤ ((newMemoryStore t0).run ops).inodes := by
  have h1 : (1 : Nat) % U64 = 1 := by decide
  have hinv : InodeInv (newMemoryStore t0) := by
    constructor
    · simp [newMemoryStore, rootMeta]
    · intro kv hkv
      rcases List.mem_singleton.mp hkv with rfl
      exact Nat.le_refl _
  have hcap' : (newMemoryStore t0).inodes + allocCount ops < U64 := by
    show 1 % U64 + allocCount ops < U64
    rw [h1]
    exact hcap
  exact (run_inodes ops (newMemoryStore t0) hnoupd hinv hcap').1

/-- C8 witness: two allocations on a fresh store satisfy the bound and
yield pairwise-distinct inodes. -/
theorem c8_witness :
    (((newMemoryStore 0).run [Op.create 1 "/a" 420, Op.mkdir 2 "/d" 493]).data.map
      (fun kv => kv.2.inode)).Nodup ∧
    ∀ kv ∈ ((newMemoryStore 0).run [Op.create 1 "/a" 420, Op.mkdir 2 "/d" 493]).data,
      kv.2.inode ≤ ((newMemoryStore 0).run [Op.create 1 "/a" 420, Op.mkdir 2 "/d" 493]).inodes :=
  c8_inodes_distinct_without_update 0 [Op.create 1 "/a" 420, Op.mkdir 2 "/d" 493]
    (by decide) (by decide)

/-! ### Normalized keys under `TrimPrefix("/")` -/

theorem goTrimPre_slash {l : List Char} : goTrimPre ⟨'/' :: l⟩ "/" = ⟨l⟩ := by
  rw [goTrimPre, if_pos ?_]
  · rfl
  · show List.isPrefixOf ['/'] ('/' :: l) = true
    simp [List.isPrefixOf]

theorem goTrimPre_slash_of_head_ne {l : List Char} (h : l.head? ≠ some '/') :
    goTrimPre ⟨l⟩ "/" = ⟨l⟩ := by
  rw [goTrimPre, if_neg ?_]
  show ¬(List.isPrefixOf ['/'] l = true)
  cases l with
  | nil => simp [List.isPrefixOf]
  | cons c t =>
    have hc : ¬('/' = c) := by
      intro hh
      exact h (by rw [← hh]; rfl)
    simp [List.isPrefixOf, hc]

theorem normalizePath_eq_root {p : String} (h : normalizeL p.data = ['/']) :
    normalizePath p = "/" := by
  show (⟨normalizeL p.data⟩ : String) = "/"
  rw [h]

theorem mem_data_normalizePath {p : String} {c : Char}
    (hc : c ∈ (normalizePath p).data) : c ∈ p.data ∨ c = '/' :=
  mem_normalizeL hc

/-! ### C10: FileStorage.Delete mutates before failing -/

/-- C10: when the location mapping of the normalized key fails
validation, `Delete` returns InvalidArgument, yet the key has already
been removed from the cache and added to the dirty set, and the backing
store is untouched. -/
theorem c10_delete_not_atomic (fs : FileStorage) (disk : Disk) (key : String)
    (h : keyToPath fs.config (goTrimPre (normalizePath key) "/") = .err .invalidArgument) :
    fs.delete disk key =
      (.err .invalidArgument,
       { fs with cache := eraseA fs.cache (normalizePath key),
                 dirty := insertSet fs.dirty (normalizePath key) }, disk) ∧
    lookupA (fs.delete disk key).2.1.cache (normalizePath key) = none ∧
    normalizePath key ∈ (fs.delete disk key).2.1.dirty := by
  have hd : fs.delete disk key =
      (.err .invalidArgument,
       { fs with cache := eraseA fs.cache (normalizePath key),
                 dirty := insertSet fs.dirty (normalizePath key) }, disk) := by
    rw [FileStorage.delete, h]
  refine ⟨hd, ?_, ?_⟩
  · rw [hd]
    exact lookupA_eraseA_self _ _
  · rw [hd]
    exact mem_insertSet.mpr (Or.inl rfl)

/-- C10 witness: deleting a cached key containing a null byte errors but
has already dropped the cache entry and dirtied the key. -/
theorem c10_witness :
    fsC10.delete [] "/x\x00" =
      (.err .invalidArgument,
       { fsC10 with cache := eraseA fsC10.cache (normalizePath "/x\x00"),
                    dirty := insertSet fsC10.dirty (normalizePath "/x\x00") }, []) ∧
    lookupA (fsC10.delete [] "/x\x00").2.1.cache (normalizePath "/x\x00") = none ∧
    normalizePath "/x\x00" ∈ (fsC10.delete [] "/x\x00").2.1.dirty :=
  c10_delete_not_atomic fsC10 [] "/x\x00" (by decide)

/-! ### C4: Save/Load round trip -/

theorem compress_id (cfg : StorageConfig) (data : List Nat) :
    (if cfg.enableCompression then compressData cfg data else data) = data := by
  by_cases h : cfg.enableCompression <;> simp [compressData, h]

theorem load_cache_hit {fs : FileStorage} {disk : Disk} {key : String} {data : List Nat}
    (h : lookupA fs.cache (normalizePath key) = some data) :
    fs.load disk key = .ok (data, fs) := by
  rw [FileStorage.load, h]

/-- C4: for a valid key (non-empty, not normalizing to the root, free of
null bytes, whose mapped location stays under the root), `Save(k, data)`
succeeds and an immediate `Load(k)` returns exactly `data`, before any
flush and regardless of the compression flag (compression is an identity
passthrough). -/
theorem c4_save_load_roundtrip (fs : FileStorage) (disk : Disk) (key : String)
    (data : List Nat)
    (h1 : key ≠ "") (h2 : normalizePath key ≠ "/") (h3 : nullChar ∉ key.data)
    (h4 : goHasPre (goClean (filepathJoin fs.config.rootDir
            (goTrimPre (normalizePath key) "/"))) fs.config.rootDir = true) :
    ∃ fs', fs.save key data = .ok fs' ∧ fs'.load disk key = .ok (data, fs') := by
  rcases normalizeL_shape key.data with hsh | ⟨rest, hne, hhead, hsh⟩
  · exact absurd (normalizePath_eq_root hsh) h2
  · have hnk : normalizePath key = ⟨'/' :: rest⟩ := congrArg String.mk hsh
    have htrim : goTrimPre (normalizePath key) "/" = ⟨rest⟩ := by
      rw [hnk]
      exact goTrimPre_slash
    have htrim2 : goTrimPre (⟨rest⟩ : String) "/" = ⟨rest⟩ := goTrimPre_slash_of_head_ne hhead
    have hrest_ne : (⟨rest⟩ : String) ≠ "" := by
      intro hc
      exact hne (congrArg String.data hc)
    have hnull : nullChar ∉ rest := by
      intro hc
      have hm : nullChar ∈ normalizeL key.data := by
        rw [hsh]
        exact List.mem_cons_of_mem _ hc
      rcases mem_normalizeL hm with hx | hx
      · exact h3 hx
      · exact absurd hx (by decide)
    have hnull' : ¬(nullChar ∈ (⟨rest⟩ : String).data) := hnull
    have hvalid : validatePath fs.config ⟨rest⟩ = true := by
      rw [validatePath, if_neg hrest_ne, if_neg hnull']
      rw [htrim] at h4
      exact h4
    have hk2p : keyToPath fs.config (goTrimPre (normalizePath key) "/") =
        .ok (filepathJoin fs.config.rootDir ⟨rest⟩) := by
      rw [htrim, keyToPath, htrim2, if_pos hvalid]
    refine ⟨{ fs with
              cache := insertA fs.cache (normalizePath key) data,
              dirty := insertSet fs.dirty (normalizePath key) }, ?_, ?_⟩
    · rw [FileStorage.save, if_neg h1, if_neg h2, hk2p, compress_id]
    · exact load_cache_hit (lookupA_insertA_self _ _ _)

/-- C4 witness: the round trip on a concrete key and payload. -/
theorem c4_witness :
    ∃ fs', fsEmpty.save "/k/f" [3, 4, 5] = .ok fs' ∧
      fs'.load [] "/k/f" = .ok ([3, 4, 5], fs') :=
  c4_save_load_roundtrip fsEmpty [] "/k/f" [3, 4, 5] (by decide) (by decide) (by decide)
    (by decide)

/-! ### C5: Save validation -/

theorem save_ok_inv {fs : FileStorage} {key : String} {data : List Nat} {fs' : FileStorage}
    (h : fs.save key data = .ok fs') :
    fs' = { fs with
            cache := insertA fs.cache (normalizePath key)
              (if fs.config.enableCompression then compressData fs.config data else data),
            dirty := insertSet fs.dirty (normalizePath key) } := by
  rw [FileStorage.save] at h
  split at h
  · exact Res.noConfusion h
  · split at h
    · exact Res.noConfusion h
    · split at h
      · exact Res.noConfusion h
      · injection h with h'
        exact h'.symm

/-- C5 counterexample: the original claim says a key containing a null
byte fails with InvalidArgument, but a `".."` segment can cancel the
null-bearing segment during normalization, after which `Save` succeeds. -/
theorem c5_counterexample :
    nullChar ∈ ("a\x00/../b" : String).data ∧
    (fsEmpty.save "a\x00/../b" [0]).isOk = true := by decide

/-- C5 (amended): `Save` fails with InvalidArgument exactly when the key
is empty, normalizes to the root, or its NORMALIZED form carries a null
byte or maps outside the configured root (validation runs on the
normalized key, so characters removed by normalization do not count); a
successful `Save` only inserts the normalized key's cache entry
(compression being an identity) and dirty flag, leaving every other
cache entry untouched. -/
theorem c5_save_error_characterization (fs : FileStorage) (key : String) (data : List Nat) :
    ((fs.save key data).isOk = false ↔
      (key = "" ∨ normalizePath key = "/" ∨ nullChar ∈ (normalizePath key).data ∨
        goHasPre (goClean (filepathJoin fs.config.rootDir
          (goTrimPre (normalizePath key) "/"))) fs.config.rootDir = false)) ∧
    (∀ fs', fs.save key data = .ok fs' →
      fs'.config = fs.config ∧
      fs'.cache = insertA fs.cache (normalizePath key) data ∧
      fs'.dirty = insertSet fs.dirty (normalizePath key) ∧
      lookupA fs'.cache (normalizePath key) = some data ∧
      (∀ k, k ≠ normalizePath key → lookupA fs'.cache k = lookupA fs.cache k)) := by
  constructor
  · by_cases h1 : key = ""
    · constructor
      · intro _
        exact Or.inl h1
      · intro _
        rw [FileStorage.save, if_pos h1]
        rfl
    · by_cases h2 : normalizePath key = "/"
      · constructor
        · intro _
          exact Or.inr (Or.inl h2)
        · intro _
          rw [FileStorage.save, if_neg h1, if_pos h2]
          rfl
      · rcases normalizeL_shape key.data with hsh | ⟨rest, hne, hhead, hsh⟩
        · exact absurd (normalizePath_eq_root hsh) h2
        · have hnk : normalizePath key = ⟨'/' :: rest⟩ := congrArg String.mk hsh
          have htrim : goTrimPre (normalizePath key) "/" = ⟨rest⟩ := by
            rw [hnk]
            exact goTrimPre_slash
          have htrim2 : goTrimPre (⟨rest⟩ : String) "/" = ⟨rest⟩ :=
            goTrimPre_slash_of_head_ne hhead
          have hrest_ne : (⟨rest⟩ : String) ≠ "" := fun hc => hne (congrArg String.data hc)
          have hnulliff : nullChar ∈ (normalizePath key).data ↔ nullChar ∈ rest := by
            rw [hnk]
            show nullChar ∈ '/' :: rest ↔ _
            constructor
            · intro hx
              rcases List.mem_cons.mp hx with hx | hx
              · exact absurd hx (by decide)
              · exact hx
            · exact List.mem_cons_of_mem _
          by_cases hn : nullChar ∈ rest
          · have hval : validatePath fs.config ⟨rest⟩ = false := by
              rw [validatePath, if_neg hrest_ne,
                if_pos (show nullChar ∈ (⟨rest⟩ : String).data from hn)]
            have hk2p : keyToPath fs.config (goTrimPre (normalizePath key) "/") =
                .err .invalidArgument := by
              rw [htrim, keyToPath, htrim2, if_neg (by simp [hval])]
            constructor
            · intro _
              exact Or.inr (Or.inr (Or.inl (hnulliff.mpr hn)))
            · intro _
              rw [FileStorage.save, if_neg h1, if_neg h2, hk2p]
              rfl
          · have hval : validatePath fs.config ⟨rest⟩ =
                goHasPre (goClean (filepathJoin fs.config.rootDir ⟨rest⟩))
                  fs.config.rootDir := by
              rw [validatePath, if_neg hrest_ne,
                if_neg (show ¬(nullChar ∈ (⟨rest⟩ : String).data) from hn)]
            by_cases hp : goHasPre (goClean (filepathJoin fs.config.rootDir ⟨rest⟩))
                fs.config.rootDir = true
            · have hk2p : keyToPath fs.config (goTrimPre (normalizePath key) "/") =
                  .ok (filepathJoin fs.config.rootDir ⟨rest⟩) := by
                rw [htrim, keyToPath, htrim2, if_pos (by rw [hval]; exact hp)]
              have hsave : (fs.save key data).isOk = true := by
                rw [FileStorage.save, if_neg h1, if_neg h2, hk2p]
                rfl
              constructor
              · intro hx
                rw [hsave] at hx
                exact absurd hx (by decide)
              · rintro (hx | hx | hx | hx)
                · exact absurd hx h1
                · exact absurd hx h2
                · exact absurd (hnulliff.mp hx) hn
                · rw [htrim] at hx
                  rw [hx] at hp
                  exact absurd hp (by decide)
            · have hpf : goHasPre (goClean (filepathJoin fs.config.rootDir ⟨rest⟩))
                  fs.config.rootDir = false := by
                cases hb : goHasPre (goClean (filepathJoin fs.config.rootDir ⟨rest⟩))
                  fs.config.rootDir
                · rfl
                · exact absurd hb hp
              have hk2p : keyToPath fs.config (goTrimPre (normalizePath key) "/") =
                  .err .invalidArgument := by
                rw [htrim, keyToPath, htrim2, if_neg (by rw [hval]; exact hp)]
              constructor
              · intro _
                refine Or.inr (Or.inr (Or.inr ?_))
                rw [htrim]
                exact hpf
              · intro _
                rw [FileStorage.save, if_neg h1, if_neg h2, hk2p]
                rfl
  · intro fs' h
    have hfs' := save_ok_inv h
    subst hfs'
    refine ⟨rfl, ?_, rfl, ?_, ?_⟩
    · show insertA fs.cache (normalizePath key)
        (if fs.config.enableCompression then compressData fs.config data else data) =
        insertA fs.cache (normalizePath key) data
      rw [compress_id]
    · show lookupA (insertA fs.cache (normalizePath key)
        (if fs.config.enableCompression then compressData fs.config data else data))
        (normalizePath key) = some data
      rw [compress_id]
      exact lookupA_insertA_self _ _ _
    · intro k hk
      exact lookupA_insertA_ne _ _ _ _ hk

/-- C5 witness: a successful concrete `Save` exhibits the frame
property. -/
theorem c5_witness :
    fsKF.config = fsEmpty.config ∧
    fsKF.cache = insertA fsEmpty.cache (normalizePath "/k/f") [3, 4, 5] ∧
    fsKF.dirty = insertSet fsEmpty.dirty (normalizePath "/k/f") ∧
    lookupA fsKF.cache (normalizePath "/k/f") = some [3, 4, 5] ∧
    (∀ k, k ≠ normalizePath "/k/f" → lookupA fsKF.cache k = lookupA fsEmpty.cache k) :=
  (c5_save_error_characterization fsEmpty "/k/f" [3, 4, 5]).2 fsKF (by decide)

/-! ### C3: Sync -/

theorem syncGo_subset (cfg : StorageConfig) :
    ∀ (cache : List (String × List Nat)) (dirty : List String) (disk : Disk)
      (d' : List String) (disk' : Disk),
      syncGo cfg cache dirty disk = .ok (d', disk') → ∀ x ∈ d', x ∈ dirty := by
  intro cache
  induction cache with
  | nil =>
    intro dirty disk d' disk' h x hx
    rw [syncGo] at h
    injection h with hpair
    injection hpair with h1 h2
    rw [h1]
    exact hx
  | cons kd rest ih =>
    intro dirty disk d' disk' h x hx
    obtain ⟨key, dat⟩ := kd
    rw [syncGo] at h
    by_cases hk : key ∈ dirty
    · rw [if_pos hk] at h
      split at h
      · exact Res.noConfusion h
      · exact (mem_removeSet.mp
          (ih (removeSet dirty key) (insertA _ _ dat) d' disk' h x hx)).1
    · rw [if_neg hk] at h
      exact ih dirty disk d' disk' h x hx

theorem syncGo_frame (cfg : StorageConfig) :
    ∀ (cache : List (String × List Nat)) (dirty : List String) (disk : Disk)
      (d' : List String) (disk' : Disk) (q : String),
      syncGo cfg cache dirty disk = .ok (d', disk') →
      (∀ k dat, (k, dat) ∈ cache → k ∈ dirty →
        keyToPath cfg (goTrimPre k "/") ≠ .ok q) →
      lookupA disk' q = lookupA disk q := by
  intro cache
  induction cache with
  | nil =>
    intro dirty disk d' disk' q h _
    rw [syncGo] at h
    injection h with hpair
    injection hpair with h1 h2
    rw [← h2]
  | cons kd rest ih =>
    intro dirty disk d' disk' q h hcond
    obtain ⟨key, dat⟩ := kd
    rw [syncGo] at h
    by_cases hk : key ∈ dirty
    · rw [if_pos hk] at h
      split at h
      · exact Res.noConfusion h
      · rename_i path hkp
        have hq : path ≠ q := by
          intro hc
          exact hcond key dat (List.mem_cons_self _ _) hk (by rw [hkp, hc])
        have hcond' : ∀ k dat2, (k, dat2) ∈ rest → k ∈ removeSet dirty key →
            keyToPath cfg (goTrimPre k "/") ≠ .ok q := fun k dat2 hmem hdk =>
          hcond k dat2 (List.mem_cons_of_mem _ hmem) (mem_removeSet.mp hdk).1
        rw [ih (removeSet dirty key) (insertA disk path dat) d' disk' q h hcond']
        exact lookupA_insertA_ne _ _ _ _ (fun hc => hq hc.symm)
    · rw [if_neg hk] at h
      exact ih dirty disk d' disk' q h
        (fun k dat2 hmem hdk => hcond k dat2 (List.mem_cons_of_mem _ hmem) hdk)

theorem syncGo_clears (cfg : StorageConfig) :
    ∀ (cache : List (String × List Nat)) (dirty : List String) (disk : Disk)
      (d' : List String) (disk' : Disk),
      syncGo cfg cache dirty disk = .ok (d', disk') →
      ∀ k dat, (k, dat) ∈ cache → k ∉ d' := by
  intro cache
  induction cache with
  | nil =>
    intro _ _ _ _ _ k dat hmem
    exact absurd hmem (List.not_mem_nil _)
  | cons kd rest ih =>
    intro dirty disk d' disk' h k dat hmem
    obtain ⟨key, dat0⟩ := kd
    rw [syncGo] at h
    by_cases hk : key ∈ dirty
    · rw [if_pos hk] at h
      split at h
      · exact Res.noConfusion h
      · rename_i path hkp
        rcases List.mem_cons.mp hmem with heq | hmem'
        · have hkey : k = key := congrArg Prod.fst heq
          subst hkey
          intro hxd
          have hsub := syncGo_subset cfg rest (removeSet dirty k)
            (insertA disk path dat0) d' disk' h k hxd
          exact (mem_removeSet.mp hsub).2 rfl
        · exact ih (removeSet dirty key) (insertA disk path dat0) d' disk' h k dat hmem'
    · rw [if_neg hk] at h
      rcases List.mem_cons.mp hmem with heq | hmem'
      · have hkey : k = key := congrArg Prod.fst heq
        subst hkey
        intro hxd
        exact hk (syncGo_subset cfg rest dirty disk d' disk' h k hxd)
      · exact ih dirty disk d' disk' h k dat hmem'

theorem syncGo_writes (cfg : StorageConfig) :
    ∀ (cache : List (String × List Nat)) (dirty : List String) (disk : Disk)
      (d' : List String) (disk' : Disk),
      syncGo cfg cache dirty disk = .ok (d', disk') →
      (∀ k1 k2 dat1 dat2, (k1, dat1) ∈ cache → (k2, dat2) ∈ cache →
        k1 ∈ dirty → k2 ∈ dirty → k1 ≠ k2 →
        keyToPath cfg (goTrimPre k1 "/") ≠ keyToPath cfg (goTrimPre k2 "/")) →
      ∀ k dat, lookupA cache k = some dat → k ∈ dirty →
        ∃ path, keyToPath cfg (goTrimPre k "/") = .ok path ∧
          lookupA disk' path = some dat := by
  intro cache
  induction cache with
  | nil =>
    intro _ _ _ _ _ _ k dat hl
    exact absurd hl (by simp [lookupA])
  | cons kd rest ih =>
    intro dirty disk d' disk' h hdist k dat hl hkd
    obtain ⟨key, dat0⟩ := kd
    rw [syncGo] at h
    by_cases hkk : k = key
    · subst hkk
      rw [lookupA, if_pos rfl] at hl
      have hdat : dat0 = dat := Option.some.inj hl
      rw [if_pos hkd] at h
      split at h
      · exact Res.noConfusion h
      · rename_i path hkp
        refine ⟨path, hkp, ?_⟩
        have hcond : ∀ k2 dat2, (k2, dat2) ∈ rest → k2 ∈ removeSet dirty k →
            keyToPath cfg (goTrimPre k2 "/") ≠ .ok path := by
          intro k2 dat2 hmem hdk2
          obtain ⟨hk2d, hk2ne⟩ := mem_removeSet.mp hdk2
          intro hc
          exact hdist k2 k dat2 dat0 (List.mem_cons_of_mem _ hmem)
            (List.mem_cons_self _ _) hk2d hkd hk2ne (by rw [hc, hkp])
        rw [syncGo_frame cfg rest (removeSet dirty k) (insertA disk path dat0) d' disk'
          path h hcond, ← hdat]
        exact lookupA_insertA_self _ _ _
    · rw [lookupA, if_neg hkk] at hl
      by_cases hk : key ∈ dirty
      · rw [if_pos hk] at h
        split at h
        · exact Res.noConfusion h
        · rename_i path hkp
          refine ih (removeSet dirty key) (insertA disk path dat0) d' disk' h ?_ k dat hl
            (mem_removeSet.mpr ⟨hkd, hkk⟩)
          intro k1 k2 dat1 dat2 h1 h2 hd1 hd2 hne
          exact hdist k1 k2 dat1 dat2 (List.mem_cons_of_mem _ h1)
            (List.mem_cons_of_mem _ h2) (mem_removeSet.mp hd1).1 (mem_removeSet.mp hd2).1 hne
      · rw [if_neg hk] at h
        exact ih dirty disk d' disk' h
          (fun k1 k2 dat1 dat2 h1 h2 => hdist k1 k2 dat1 dat2
            (List.mem_cons_of_mem _ h1) (List.mem_cons_of_mem _ h2)) k dat hl hkd

theorem syncGo_noop (cfg : StorageConfig) :
    ∀ (cache : List (String × List Nat)) (dirty : List String) (disk : Disk),
      (∀ k dat, (k, dat) ∈ cache → k ∉ dirty) →
      syncGo cfg cache dirty disk = .ok (dirty, disk) := by
  intro cache
  induction cache with
  | nil =>
    intro dirty disk _
    rw [syncGo]
  | cons kd rest ih =>
    intro dirty disk hcl
    obtain ⟨key, dat⟩ := kd
    rw [syncGo, if_neg (hcl key dat (List.mem_cons_self _ _))]
    exact ih dirty disk (fun k dat2 hm => hcl k dat2 (List.mem_cons_of_mem _ hm))

theorem sync_ok_inv {fs : FileStorage} {disk : Disk} {fs' : FileStorage} {disk' : Disk}
    (h : fs.sync disk = .ok (fs', disk')) :
    syncGo fs.config fs.cache fs.dirty disk = .ok (fs'.dirty, disk') ∧
      fs' = { fs with dirty := fs'.dirty } := by
  rw [FileStorage.sync] at h
  split at h
  · exact Res.noConfusion h
  · rename_i d2 disk2 heq
    injection h with hpair
    injection hpair with hfs hdk
    subst hdk
    subst hfs
    exact ⟨heq, rfl⟩

/-- C3 counterexample: after `Save("/a")` then `Delete("/a")`, the key is
dirty but not cached; `Sync` walks only the cache, so it succeeds while
leaving the dirty set non-empty, contradicting the claim that a
successful `Sync` empties it. -/
theorem c3_counterexample :
    fsEmpty.save "/a" [1] = .ok fsA ∧
    (fsA.delete [] "/a").2.1 = fsAdel ∧
    fsAdel.sync [] = .ok (fsAdel, []) ∧
    fsAdel.dirty ≠ [] := by decide

/-- C3 (amended): a successful `Sync` writes every key that is both
cached and dirty to its mapped location (provided distinct dirty cached
keys map to distinct locations, as normalized keys do) and clears
exactly those flags, so afterwards no CACHED key is dirty — dirty flags
for keys absent from the cache (e.g. deleted keys) survive; the cache
itself is never modified; when no cached key is dirty, `Sync` changes
neither the dirty set nor the backing store; a second `Sync` right after
a successful one is a no-op. -/
theorem c3_sync_writeback (fs : FileStorage) (disk : Disk) (fs' : FileStorage)
    (disk' : Disk)
    (hdist : ∀ k1 k2 dat1 dat2, (k1, dat1) ∈ fs.cache → (k2, dat2) ∈ fs.cache →
      k1 ∈ fs.dirty → k2 ∈ fs.dirty → k1 ≠ k2 →
      keyToPath fs.config (goTrimPre k1 "/") ≠ keyToPath fs.config (goTrimPre k2 "/"))
    (h : fs.sync disk = .ok (fs', disk')) :
    fs'.config = fs.config ∧ fs'.cache = fs.cache ∧
    (∀ k dat, (k, dat) ∈ fs.cache → k ∉ fs'.dirty) ∧
    (∀ k, k ∈ fs'.dirty → k ∈ fs.dirty) ∧
    (∀ k dat, lookupA fs.cache k = some dat → k ∈ fs.dirty →
      ∃ path, keyToPath fs.config (goTrimPre k "/") = .ok path ∧
        lookupA disk' path = some dat) ∧
    ((∀ k dat, (k, dat) ∈ fs.cache → k ∉ fs.dirty) → fs' = fs ∧ disk' = disk) ∧
    fs'.sync disk' = .ok (fs', disk') := by
  obtain ⟨hgo, hfs'⟩ := sync_ok_inv h
  have hcfg : fs'.config = fs.config := by rw [hfs']
  have hcache : fs'.cache = fs.cache := by rw [hfs']
  refine ⟨hcfg, hcache, ?_, ?_, ?_, ?_, ?_⟩
  · intro k dat hm
    exact syncGo_clears fs.config fs.cache fs.dirty disk fs'.dirty disk' hgo k dat hm
  · intro k hk
    exact syncGo_subset fs.config fs.cache fs.dirty disk fs'.dirty disk' hgo k hk
  · exact syncGo_writes fs.config fs.cache fs.dirty disk fs'.dirty disk' hgo hdist
  · intro hclean
    have hnoop := syncGo_noop fs.config fs.cache fs.dirty disk hclean
    rw [hnoop] at hgo
    injection hgo with hpair
    injection hpair with hd hdisk
    constructor
    · rw [hfs', ← hd]
    · exact hdisk.symm
  · have hclean2 : ∀ k dat, (k, dat) ∈ fs'.cache → k ∉ fs'.dirty := by
      intro k dat hm
      rw [hcache] at hm
      exact syncGo_clears fs.config fs.cache fs.dirty disk fs'.dirty disk' hgo k dat hm
    have hnoop := syncGo_noop fs'.config fs'.cache fs'.dirty disk' hclean2
    rw [FileStorage.sync, hnoop]

/-- C3 witness: syncing a store with one dirty cached key `/a` writes it
to `data/meta/a`, clears the flag, and a repeated `Sync` is a no-op. -/
theorem c3_witness :
    fsAsynced.config = fsA.config ∧ fsAsynced.cache = fsA.cache ∧
    (∀ k dat, (k, dat) ∈ fsA.cache → k ∉ fsAsynced.dirty) ∧
    (∀ k, k ∈ fsAsynced.dirty → k ∈ fsA.dirty) ∧
    (∀ k dat, lookupA fsA.cache k = some dat → k ∈ fsA.dirty →
      ∃ path, keyToPath fsA.config (goTrimPre k "/") = .ok path ∧
        lookupA [("data/meta/a", [1])] path = some dat) ∧
    ((∀ k dat, (k, dat) ∈ fsA.cache → k ∉ fsA.dirty) →
      fsAsynced = fsA ∧ ([("data/meta/a", [1])] : Disk) = []) ∧
    fsAsynced.sync [("data/meta/a", [1])] = .ok (fsAsynced, [("data/meta/a", [1])]) := by
  refine c3_sync_writeback fsA [] fsAsynced [("data/meta/a", [1])] ?_ (by decide)
  intro k1 k2 d1 d2 h1 h2 _ _ hne
  simp [fsA] at h1 h2
  exact absurd (h1.1.trans h2.1.symm) hne
